import Mathlib

/-!
# MASCOT — verification of the dependency-analysis pipeline

Shallow embedding of the core of MASCOT (a workspace-level build
configuration generator for ActionScript projects) and proofs about it.

The JavaScript sources embedded here:
* `own_modules/dep_tools.js` — `buildDependencies`, `makeBuildTasks`
  (with its nested `collectDependencies`);
* `own_modules/dirty_tools.js` — `isProjectDirty`, `applyDirtinessFilter`;
* `own_modules/patch_tools.js` — `manuallyAddDependencies`;
* `scan_tools.js` — `doShallowScan` (`scanDir`, `traverse`),
  `resolveDependency`;
* `file_tools.js` — `writeConfig` (`sanitizeFileName`), `writeVSCSettings`.

Recursive JavaScript functions that carry no structural termination
argument (`collectDependencies`, `isProjectDirty`) are embedded with an
explicit fuel parameter: a result of `none` means the recursion did not
complete within the given fuel, and `∀ fuel, … = none` means the source
function never returns (it recurses until the stack overflows).
File-system state (`fs.existsSync`) is embedded as the list of paths
present on disk.
-/

/-- One entry of an application descriptor's `related_class`
(shape produced by `scanDir` and consumed by `buildDependencies`). -/
structure RootClass where
  file_path : String
  package : Option String
deriving Repr, DecidableEq

/-- One node of `deps.json`, as written by `buildDependencies` and read by
`makeBuildTasks` and the dirtiness filter. -/
structure DepNode where
  project_path : String
  project_dependencies : List String
  num_dependencies : Nat
  root_classes : List RootClass
deriving Repr, DecidableEq

/-- `deps.find((entry) => entry.project_path === projectPath)` — first node
of `deps.json` whose `project_path` equals the given path. -/
def findNode (deps : List DepNode) (projectPath : String) : Option DepNode :=
  deps.find? (fun entry => entry.project_path == projectPath)

/-- Dependency list of a project as recorded in `deps.json`
(`[]` when the project has no node). -/
def depsOf (deps : List DepNode) (p : String) : List String :=
  match findNode deps p with
  | some node => node.project_dependencies
  | none => []

/-- The `(project.project_dependencies || []).forEach(...)` loop inside
`collectDependencies`: run `step` (the recursive call) on each dependency
in order, then append the dependency to `collected` if absent.  `none`
propagates fuel exhaustion from `step`. -/
def collectDepList
    (step : String → List String → List String → Option (List String × List String)) :
    List String → List String → List String →
    Option (List String × List String)
  | [], collected, problems => some (collected, problems)
  | dependency :: rest, collected, problems =>
    match step dependency collected problems with
    | none => none
    | some (c, pr) =>
      collectDepList step rest (if c.contains dependency then c else c ++ [dependency]) pr

/-- `collectDependencies(projectPath, collected)` from
`dep_tools.js` (`makeBuildTasks`), with explicit fuel.  The state is the
pair (collected, problems); `none` means the recursion did not finish
within `fuel` nested calls.  The source has no cycle guard (its own
comment says `TODO FIXME!!! Handle cyclic dependencies...`): each
dependency is recursed into unconditionally, then appended if absent, and
finally the project itself is appended if absent. -/
def collectDependencies (deps : List DepNode) :
    Nat → String → List String → List String →
    Option (List String × List String)
  | 0, _, _, _ => none
  | fuel + 1, projectPath, collected, problems =>
    match findNode deps projectPath with
    | none =>
      some (collected,
        problems ++ ["Missing dependency information for project: " ++ projectPath])
    | some project =>
      match collectDepList (collectDependencies deps fuel)
          project.project_dependencies collected problems with
      | none => none
      | some (c, pr) =>
        if c.contains projectPath then some (c, pr)
        else some (c ++ [projectPath], pr)

/-- The per-project body of the `deps.forEach` loop in `makeBuildTasks`:
the build task computed for one project (fresh `collected`, threaded
`problems`). -/
structure BuildTask where
  project_path : String
  project_build_tasks : List String
  num_tasks : Nat
deriving Repr, DecidableEq

/-- The task `makeBuildTasks` pushes for `project_path`: its
`project_build_tasks` is `collectDependencies(project_path)` run on an
empty `collected` list. -/
def taskFor (deps : List DepNode) (fuel : Nat) (projectPath : String)
    (problems : List String) : Option (BuildTask × List String) :=
  match collectDependencies deps fuel projectPath [] problems with
  | none => none
  | some (allDependencies, pr) =>
    some ({ project_path := projectPath,
            project_build_tasks := allDependencies,
            num_tasks := allDependencies.length }, pr)

example : (collectDependencies
    [⟨"A", ["B"], 1, []⟩, ⟨"B", [], 0, []⟩] 10 "A" [] []) =
    some (["B", "A"], []) := by decide

example : (collectDependencies
    [⟨"A", ["B"], 1, []⟩, ⟨"B", ["A"], 1, []⟩] 10 "A" [] []) = none := by decide

/-- The two-project cycle of the spec's scenario S4: `A` depends on `B`
and `B` depends on `A` (a well-formed `deps.json`). -/
def depsCycleAB : List DepNode :=
  [⟨"A", ["B"], 1, []⟩, ⟨"B", ["A"], 1, []⟩]

lemma collectDependencies_cycleAB_none : ∀ fuel c pr,
    collectDependencies depsCycleAB fuel "A" c pr = none ∧
    collectDependencies depsCycleAB fuel "B" c pr = none := by
  intro fuel
  induction fuel with
  | zero => intro c pr; exact ⟨rfl, rfl⟩
  | succ n ih =>
    intro c pr
    refine ⟨?_, ?_⟩
    · have hfind : findNode depsCycleAB "A" = some ⟨"A", ["B"], 1, []⟩ := rfl
      simp only [collectDependencies, hfind, collectDepList, (ih c pr).2]
    · have hfind : findNode depsCycleAB "B" = some ⟨"B", ["A"], 1, []⟩ := rfl
      simp only [collectDependencies, hfind, collectDepList, (ih c pr).1]

/-- Reachability along dependency edges of `deps.json`: `Reaches deps p x`
holds when `x` can be reached from `p` by following zero or more
`project_dependencies` edges. -/
inductive Reaches (deps : List DepNode) : String → String → Prop
  | refl (x : String) : Reaches deps x x
  | step {x y z : String} : y ∈ depsOf deps x → Reaches deps y z → Reaches deps x z

lemma Reaches.snoc {deps : List DepNode} {p a b : String}
    (h : Reaches deps p a) (hd : b ∈ depsOf deps a) : Reaches deps p b := by
  induction h with
  | refl x => exact Reaches.step hd (Reaches.refl b)
  | step hmem _ ih => exact Reaches.step hmem (ih hd)

/-- A list is dependency-ordered when it was built by successive appends,
each appended project having all of its `deps.json` dependencies already
in the list. -/
inductive TopoList (deps : List DepNode) : List String → Prop
  | nil : TopoList deps []
  | snoc {l : List String} {x : String} : TopoList deps l →
      (∀ d ∈ depsOf deps x, d ∈ l) → TopoList deps (l ++ [x])

/-- A `TopoList` satisfies the positional topological property: every
dependency of the element at index `i` that occurs in the list occurs
strictly before index `i`. -/
lemma TopoList.topo_index {deps : List DepNode} {l : List String}
    (h : TopoList deps l) :
    ∀ i (hi : i < l.length), ∀ d ∈ depsOf deps l[i], d ∈ l.take i := by
  induction h with
  | nil => intro i hi; simp at hi
  | snoc hl hdeps ih =>
    rename_i l' x
    intro i hi d hd
    rcases Nat.lt_or_ge i l'.length with hlt | hge
    · rw [List.getElem_append_left hlt] at hd
      rw [List.take_append_of_le_length (Nat.le_of_lt hlt)]
      exact ih i hlt d hd
    · have hlen : i = l'.length := by
        simp only [List.length_append, List.length_singleton] at hi
        omega
      subst hlen
      have hx : (l' ++ [x])[l'.length] = x := by
        simp
      rw [hx] at hd
      rw [List.take_append_of_le_length (Nat.le_refl _)]
      simpa using hdeps d hd

/-- The behaviour `collectDepList` needs of its `step` argument;
`collectDependencies deps fuel` satisfies it for every fuel. -/
def StepSpec (deps : List DepNode)
    (step : String → List String → List String →
      Option (List String × List String)) : Prop :=
  ∀ p c pr c' pr', step p c pr = some (c', pr') →
    (∃ t, c' = c ++ t ∧ ∀ x ∈ t, Reaches deps p x) ∧
    (c.Nodup → c'.Nodup) ∧
    (TopoList deps c → TopoList deps c') ∧
    ((findNode deps p).isSome → p ∈ c')

lemma collectDepList_spec {deps : List DepNode}
    {step : String → List String → List String →
      Option (List String × List String)}
    (hstep : StepSpec deps step) :
    ∀ (l c pr : List String) (c' pr' : List String),
      collectDepList step l c pr = some (c', pr') →
      (∃ t, c' = c ++ t ∧ ∀ x ∈ t, ∃ y ∈ l, Reaches deps y x) ∧
      (c.Nodup → c'.Nodup) ∧
      (TopoList deps c → TopoList deps c') ∧
      (∀ d ∈ l, d ∈ c') := by
  intro l
  induction l with
  | nil =>
    intro c pr c' pr' h
    simp only [collectDepList, Option.some.injEq, Prod.mk.injEq] at h
    obtain ⟨rfl, rfl⟩ := h
    exact ⟨⟨[], by simp⟩, fun h => h, fun h => h, by simp⟩
  | cons d rest ih =>
    intro c pr c' pr' h
    simp only [collectDepList] at h
    cases hstepd : step d c pr with
    | none => rw [hstepd] at h; exact absurd h (by simp)
    | some out =>
      obtain ⟨c1, pr1⟩ := out
      rw [hstepd] at h
      simp only at h
      obtain ⟨⟨t1, hc1, ht1⟩, hnd1, htp1, hmem1⟩ := hstep d c pr c1 pr1 hstepd
      by_cases hin : c1.contains d
      · rw [if_pos hin] at h
        obtain ⟨⟨t2, hct2, ht2⟩, hnd2, htp2, hmem2⟩ := ih c1 pr1 c' pr' h
        refine ⟨⟨t1 ++ t2, by rw [hct2, hc1]; simp, ?_⟩, ?_, ?_, ?_⟩
        · intro x hx
          rcases List.mem_append.mp hx with hx | hx
          · exact ⟨d, by simp, ht1 x hx⟩
          · obtain ⟨y, hy, hr⟩ := ht2 x hx
            exact ⟨y, by simp [hy], hr⟩
        · exact fun hnd => hnd2 (hnd1 hnd)
        · exact fun htp => htp2 (htp1 htp)
        · intro e he
          rcases List.mem_cons.mp he with rfl | hrest
          · rw [hct2]
            exact List.mem_append_left _ (List.mem_of_elem_eq_true hin)
          · exact hmem2 e hrest
      · rw [if_neg hin] at h
        have hdn : d ∉ c1 := by simpa using hin
        obtain ⟨⟨t2, hct2, ht2⟩, hnd2, htp2, hmem2⟩ := ih (c1 ++ [d]) pr1 c' pr' h
        refine ⟨⟨t1 ++ [d] ++ t2, by rw [hct2, hc1]; simp, ?_⟩, ?_, ?_, ?_⟩
        · intro x hx
          simp only [List.mem_append, List.mem_singleton] at hx
          rcases hx with (hx | rfl) | hx
          · exact ⟨d, by simp, ht1 x hx⟩
          · exact ⟨x, by simp, Reaches.refl x⟩
          · obtain ⟨y, hy, hr⟩ := ht2 x hx
            exact ⟨y, by simp [hy], hr⟩
        · intro hnd
          apply hnd2
          simp only [List.nodup_append, List.disjoint_left]
          exact ⟨hnd1 hnd, by simp, fun a ha hb => hdn (by
            simp only [List.mem_singleton] at hb; exact hb ▸ ha)⟩
        · intro htp
          apply htp2
          refine TopoList.snoc (htp1 htp) ?_
          intro e he
          cases hfind : findNode deps d with
          | some node => exact absurd (hmem1 (by simp [hfind])) hdn
          | none =>
            rw [depsOf, hfind] at he
            simp at he
        · intro e he
          rcases List.mem_cons.mp he with rfl | hrest
          · rw [hct2]
            exact List.mem_append_left _ (by simp)
          · exact hmem2 e hrest

/-- `collectDependencies deps fuel` satisfies `StepSpec` for every fuel:
whenever a call completes, the collected list is extended only with
projects reachable from the argument, duplicate-freeness and
dependency-ordering are preserved, and a project with a `deps.json` node
ends up in the list. -/
lemma collectDependencies_spec (deps : List DepNode) :
    ∀ fuel, StepSpec deps (collectDependencies deps fuel) := by
  intro fuel
  induction fuel with
  | zero =>
    intro p c pr c' pr' h
    exact absurd h (by simp [collectDependencies])
  | succ n ih =>
    intro p c pr c' pr' h
    simp only [collectDependencies] at h
    cases hfind : findNode deps p with
    | none =>
      rw [hfind] at h
      simp only [Option.some.injEq, Prod.mk.injEq] at h
      obtain ⟨rfl, rfl⟩ := h
      refine ⟨⟨[], by simp⟩, fun hh => hh, fun hh => hh, ?_⟩
      intro hs
      simp at hs
    | some node =>
      simp only [hfind] at h
      cases hloop : collectDepList (collectDependencies deps n)
          node.project_dependencies c pr with
      | none =>
        rw [hloop] at h
        exact absurd h (by simp)
      | some out =>
        obtain ⟨cl, prl⟩ := out
        rw [hloop] at h
        simp only at h
        obtain ⟨⟨t, hclt, htr⟩, hnd, htp, hmem⟩ :=
          collectDepList_spec ih node.project_dependencies c pr cl prl hloop
        have hdeps_of : depsOf deps p = node.project_dependencies := by
          rw [depsOf, hfind]
        by_cases hin : cl.contains p
        · rw [if_pos hin] at h
          simp only [Option.some.injEq, Prod.mk.injEq] at h
          obtain ⟨rfl, rfl⟩ := h
          refine ⟨⟨t, hclt, ?_⟩, hnd, htp, ?_⟩
          · intro x hx
            obtain ⟨y, hy, hr⟩ := htr x hx
            exact Reaches.step (hdeps_of ▸ hy) hr
          · intro _
            exact List.mem_of_elem_eq_true hin
        · rw [if_neg hin] at h
          simp only [Option.some.injEq, Prod.mk.injEq] at h
          obtain ⟨hc', rfl⟩ := h
          have hdn : p ∉ cl := by simpa using hin
          subst hc'
          refine ⟨⟨t ++ [p], by rw [hclt]; simp, ?_⟩, ?_, ?_, ?_⟩
          · intro x hx
            rcases List.mem_append.mp hx with hx | hx
            · obtain ⟨y, hy, hr⟩ := htr x hx
              exact Reaches.step (hdeps_of ▸ hy) hr
            · simp only [List.mem_singleton] at hx
              subst hx
              exact Reaches.refl x
          · intro hndc
            simp only [List.nodup_append, List.disjoint_left]
            exact ⟨hnd hndc, by simp, fun a ha hb => hdn (by
              simp only [List.mem_singleton] at hb; exact hb ▸ ha)⟩
          · intro htpc
            refine TopoList.snoc (htp htpc) ?_
            intro e he
            rw [hdeps_of] at he
            exact hmem e he
          · intro _
            simp

/-- Termination of the dependency collection when the subgraph reachable
from `p` admits a rank function that strictly decreases along dependency
edges (i.e. is acyclic). -/
lemma collectDepList_isSome
    {step : String → List String → List String →
      Option (List String × List String)}
    (hs : ∀ d c pr, (step d c pr).isSome) :
    ∀ (l c pr : List String), (collectDepList step l c pr).isSome := by
  intro l
  induction l with
  | nil => intro c pr; simp [collectDepList]
  | cons d rest ih =>
    intro c pr
    simp only [collectDepList]
    cases hstep : step d c pr with
    | none =>
      have h2 := hs d c pr
      rw [hstep] at h2
      simp at h2
    | some out =>
      obtain ⟨c1, pr1⟩ := out
      exact ih _ _

lemma collectDependencies_isSome (deps : List DepNode) (p : String)
    (rank : String → Nat)
    (hrank : ∀ x, Reaches deps p x → ∀ d ∈ depsOf deps x, rank d < rank x) :
    ∀ fuel x, Reaches deps p x → rank x < fuel →
      ∀ c pr, (collectDependencies deps fuel x c pr).isSome := by
  intro fuel
  induction fuel with
  | zero => intro x _ hlt; omega
  | succ n ih =>
    intro x hreach hlt c pr
    cases hfind : findNode deps x with
    | none => simp [collectDependencies, hfind]
    | some node =>
      have hdeps_of : depsOf deps x = node.project_dependencies := by
        rw [depsOf, hfind]
      have hloop : (collectDepList (collectDependencies deps n)
          node.project_dependencies c pr).isSome := by
        -- every dependency terminates at fuel `n`; then so does the loop
        rw [← hdeps_of]
        -- we cannot use `collectDepList_isSome` directly since termination
        -- only holds for reachable arguments; redo the list induction
        have : ∀ (l : List String), (∀ d ∈ l, d ∈ depsOf deps x) →
            ∀ c pr, (collectDepList (collectDependencies deps n) l c pr).isSome := by
          intro l
          induction l with
          | nil => intro _ c pr; simp [collectDepList]
          | cons d rest ihl =>
            intro hsub c pr
            simp only [collectDepList]
            have hreach_d : Reaches deps p d :=
              hreach.snoc (hsub d (by simp))
            have hrank_d : rank d < n := by
              have h1 : rank d < rank x := hrank x hreach d (hsub d (by simp))
              omega
            cases hstep : collectDependencies deps n d c pr with
            | none =>
              have h2 := ih d hreach_d hrank_d c pr
              rw [hstep] at h2
              simp at h2
            | some out =>
              obtain ⟨c1, pr1⟩ := out
              exact ihl (fun e he => hsub e (by simp [he])) _ _
        exact this _ (fun d hd => hd) c pr
      obtain ⟨out, hloopv⟩ := Option.isSome_iff_exists.mp hloop
      obtain ⟨cl, prl⟩ := out
      simp only [collectDependencies, hfind, hloopv]
      split <;> simp

lemma rank_le_of_reaches {deps : List DepNode} {p : String} {rank : String → Nat}
    (hrank : ∀ x, Reaches deps p x → ∀ d ∈ depsOf deps x, rank d < rank x) :
    ∀ {a b : String}, Reaches deps a b → Reaches deps p a → rank b ≤ rank a := by
  intro a b hab
  induction hab with
  | refl x => intro _; exact Nat.le_refl _
  | @step x y z hmem _ ih =>
    intro hpx
    have hpy : Reaches deps p y := hpx.snoc hmem
    have h1 : rank y < rank x := hrank x hpx y hmem
    have h2 := ih hpy
    omega

/-- C2: confirmed.  For a project `p` with a node in `deps.json` whose
reachable dependency subgraph is acyclic — witnessed, as is standard, by a
rank function that strictly decreases along every dependency edge leaving
a node reachable from `p` — the task computed by `makeBuildTasks` for `p`
terminates at some finite recursion budget and its
`project_build_tasks` list is duplicate-free, ends with `p` itself, and is
topologically ordered: every dependency of the entry at index `i` that
also occurs in the list occurs at an earlier index. -/
theorem c2_makeBuildTasks_topological (deps : List DepNode) (p : String)
    (node : DepNode) (rank : String → Nat)
    (hfind : findNode deps p = some node)
    (hrank : ∀ x, Reaches deps p x → ∀ d ∈ depsOf deps x, rank d < rank x) :
    ∃ fuel task pr, taskFor deps fuel p [] = some (task, pr) ∧
      task.project_path = p ∧
      task.project_build_tasks.Nodup ∧
      task.project_build_tasks.getLast? = some p ∧
      ∀ i (hi : i < task.project_build_tasks.length),
        ∀ d ∈ depsOf deps task.project_build_tasks[i],
          d ∈ task.project_build_tasks →
            d ∈ task.project_build_tasks.take i := by
  have hsome := collectDependencies_isSome deps p rank hrank (rank p + 1) p
    (Reaches.refl p) (Nat.lt_succ_self _) [] []
  obtain ⟨out, hcall⟩ := Option.isSome_iff_exists.mp hsome
  obtain ⟨c', pr'⟩ := out
  obtain ⟨⟨t, hct, htr⟩, hnd, htp, hmem⟩ :=
    collectDependencies_spec deps (rank p + 1) p [] [] c' pr' hcall
  -- the final element is p: analyze the outermost layer of the call
  have hlast : c'.getLast? = some p := by
    simp only [collectDependencies, hfind] at hcall
    cases hloop : collectDepList (collectDependencies deps (rank p))
        node.project_dependencies [] [] with
    | none =>
      rw [hloop] at hcall
      exact absurd hcall (by simp)
    | some outl =>
      obtain ⟨cl, prl⟩ := outl
      rw [hloop] at hcall
      simp only at hcall
      obtain ⟨⟨tl, hclt, htl⟩, _, _, _⟩ :=
        collectDepList_spec (collectDependencies_spec deps (rank p))
          node.project_dependencies [] [] cl prl hloop
      have hdeps_of : depsOf deps p = node.project_dependencies := by
        rw [depsOf, hfind]
      have hpn : p ∉ cl := by
        intro hp
        rw [hclt] at hp
        simp only [List.nil_append] at hp
        obtain ⟨y, hy, hr⟩ := htl p hp
        have hpy : Reaches deps p y := (Reaches.refl p).snoc (hdeps_of ▸ hy)
        have h1 : rank p ≤ rank y := rank_le_of_reaches hrank hr hpy
        have h2 : rank y < rank p := hrank p (Reaches.refl p) y (hdeps_of ▸ hy)
        omega
      rw [if_neg (by simpa using hpn)] at hcall
      simp only [Option.some.injEq, Prod.mk.injEq] at hcall
      obtain ⟨hc', _⟩ := hcall
      rw [← hc']
      exact List.getLast?_concat _
  refine ⟨rank p + 1,
    { project_path := p, project_build_tasks := c', num_tasks := c'.length },
    pr', ?_, rfl, hnd List.nodup_nil, hlast, ?_⟩
  · unfold taskFor
    rw [hcall]
  · intro i hi d hd _
    exact (htp TopoList.nil).topo_index i hi d hd

/-- The acyclic two-project graph of scenario S2: `A` depends on `B`. -/
def depsChainAB : List DepNode :=
  [⟨"A", ["B"], 1, []⟩, ⟨"B", [], 0, []⟩]

/-- Witness for C2 at the concrete acyclic graph `A → B`. -/
theorem c2_makeBuildTasks_topological_witness :
    ∃ fuel task pr, taskFor depsChainAB fuel "A" [] = some (task, pr) ∧
      task.project_path = "A" ∧
      task.project_build_tasks.Nodup ∧
      task.project_build_tasks.getLast? = some "A" ∧
      ∀ i (hi : i < task.project_build_tasks.length),
        ∀ d ∈ depsOf depsChainAB task.project_build_tasks[i],
          d ∈ task.project_build_tasks →
            d ∈ task.project_build_tasks.take i := by
  refine c2_makeBuildTasks_topological depsChainAB "A" ⟨"A", ["B"], 1, []⟩
    (fun x => if x = "A" then 1 else 0) rfl ?_
  intro x hx d hd
  by_cases hxa : x = "A"
  · subst hxa
    have : d ∈ ["B"] := hd
    simp only [List.mem_singleton] at this
    subst this
    decide
  · by_cases hxb : x = "B"
    · subst hxb
      have : d ∈ ([] : List String) := hd
      simp at this
    · have h1 : ¬ ("A" = x) := fun h => hxa h.symm
      have h2 : ¬ ("B" = x) := fun h => hxb h.symm
      have hb1 : (("A" : String) == x) = false := beq_eq_false_iff_ne.mpr h1
      have hb2 : (("B" : String) == x) = false := beq_eq_false_iff_ne.mpr h2
      have hnone : findNode depsChainAB x = none := by
        simp [findNode, depsChainAB, List.find?, hb1, hb2]
      rw [depsOf, hnone] at hd
      simp at hd

/-- C1: refuted on the code.  On the two-project cycle `A ↔ B`, the
recursive dependency collection of `makeBuildTasks` never completes — for
every recursion budget the embedded `collectDependencies` runs out of
fuel, so no finite task list is ever computed for `A` (the source, whose
own comment reads `TODO FIXME!!! Handle cyclic dependencies...`, has no
in-progress marking and recurses into the cycle forever). -/
theorem c1_makeBuildTasks_cycle_diverges :
    ∀ fuel, taskFor depsCycleAB fuel "A" [] = none := by
  intro fuel
  unfold taskFor
  rw [(collectDependencies_cycleAB_none fuel [] []).1]

/-! ## Dirtiness probe and filter (`dirty_tools.js`) -/

/-- One descriptor record kept in `known_descriptors` by the shallow
scanner (`scanDir`). -/
structure Descriptor where
  name : String
  fileName : String
  filePath : String
  relativeClassPath : String
  related_class : RootClass
deriving Repr, DecidableEq

/-- One entry of `projects.json`, as emitted by `scanDir`. -/
structure Project where
  project_name : String
  project_home_dir : String
  has_descriptor : Bool
  known_descriptors : List Descriptor
  has_lib_dir : Bool
  has_binaries : Bool
  has_app_binary : Bool
  classFiles : List String
  assetFiles : List String
  code_timestamp : Nat
  binary_timestamp : Nat
  is_dirty : Bool
  is_app_probability : ℚ
deriving Repr, DecidableEq

/-- Truthiness read `dirtyCache[key]` on the JavaScript cache object: an
absent key is `undefined`, which is falsy. -/
def cacheGet : List (String × Bool) → String → Bool
  | [], _ => false
  | e :: rest, key => if e.1 == key then e.2 else cacheGet rest key

/-- The JavaScript `key in object` test on the cache object. -/
def cacheHas : List (String × Bool) → String → Bool
  | [], _ => false
  | e :: rest, key => if e.1 == key then true else cacheHas rest key

/-- The write `dirtyCache[key] = true`: overwrite the entry if the key is
present, append it otherwise. -/
def cacheSet (cache : List (String × Bool)) (key : String) : List (String × Bool) :=
  match cache with
  | [] => [(key, true)]
  | e :: rest => if e.1 == key then (e.1, true) :: rest else e :: cacheSet rest key

/-- The seeding loop of `applyDirtinessFilter`: map every project with a
truthy (non-empty) home directory to `!!entry.is_dirty`, first occurrence
winning. -/
def seedCache (acc : List (String × Bool)) : List Project → List (String × Bool)
  | [] => acc
  | p :: rest =>
    if p.project_home_dir != "" && !(cacheHas acc p.project_home_dir)
    then seedCache (acc ++ [(p.project_home_dir, p.is_dirty)]) rest
    else seedCache acc rest

/-- The `depsMap` construction of `applyDirtinessFilter`: key each
`deps.json` entry with a truthy `project_path` by that path, first
occurrence winning. -/
def buildDepsMap (acc : List DepNode) : List DepNode → List DepNode
  | [] => acc
  | e :: rest =>
    if e.project_path != "" && (findNode acc e.project_path).isNone
    then buildDepsMap (acc ++ [e]) rest
    else buildDepsMap acc rest

/-- `Array.prototype.some` over the dependency list inside
`isProjectDirty`: probe each dependency in order, short-circuiting on the
first truthy result (`null` counts as falsy), threading the mutable
cache. -/
def someDirty
    (probe : List (String × Bool) → String →
      Option (Option Bool × List (String × Bool))) :
    List String → List (String × Bool) →
    Option (Bool × List (String × Bool))
  | [], cache => some (false, cache)
  | d :: rest, cache =>
    match probe cache d with
    | none => none
    | some (v, cache') =>
      if v.getD false then some (true, cache')
      else someDirty probe rest cache'

/-- `isProjectDirty(dirtyCache, depsMap, projectPath)` from
`dirty_tools.js`, with explicit fuel.  The inner `Option Bool` is the
JavaScript return value (`none` = `null` for unknown projects); the outer
`none` means the recursion did not finish within `fuel` nested calls.
Note the source caches only `true` (line `dirtyCache[projectPath] = true`)
and has no in-progress marking: a cached `false` does not short-circuit. -/
def isProjectDirty (depsMap : List DepNode) :
    Nat → List (String × Bool) → String →
    Option (Option Bool × List (String × Bool))
  | 0, _, _ => none
  | fuel + 1, cache, projectPath =>
    match findNode depsMap projectPath with
    | none => some (none, cache)
    | some node =>
      if cacheGet cache projectPath then some (some true, cache)
      else if node.num_dependencies = 0 then some (some false, cache)
      else
        match someDirty (isProjectDirty depsMap fuel)
            node.project_dependencies cache with
        | none => none
        | some (isDirty, cache') =>
          if isDirty && !(cacheGet cache' projectPath) then
            some (some isDirty, cacheSet cache' projectPath)
          else some (some isDirty, cache')

/-- The `filter` over one task's `project_build_tasks` in
`applyDirtinessFilter`, threading the cache through the probes in order. -/
def filterTaskEntries (depsMap : List DepNode) (fuel : Nat) :
    List String → List (String × Bool) →
    Option (List String × List (String × Bool))
  | [], cache => some ([], cache)
  | e :: rest, cache =>
    match isProjectDirty depsMap fuel cache e with
    | none => none
    | some (v, cache') =>
      match filterTaskEntries depsMap fuel rest cache' with
      | none => none
      | some (kept, cache'') =>
        some (if v.getD false then e :: kept else kept, cache'')

/-- The `tasks.forEach` loop of `applyDirtinessFilter`: rewrite each
task's `project_build_tasks` to the retained entries and set `num_tasks`
to the new length. -/
def filterTasks (depsMap : List DepNode) (fuel : Nat) :
    List BuildTask → List (String × Bool) →
    Option (List BuildTask × List (String × Bool))
  | [], cache => some ([], cache)
  | t :: rest, cache =>
    match filterTaskEntries depsMap fuel t.project_build_tasks cache with
    | none => none
    | some (kept, cache') =>
      match filterTasks depsMap fuel rest cache' with
      | none => none
      | some (ts, cache'') =>
        some ({ t with project_build_tasks := kept,
                       num_tasks := kept.length } :: ts, cache'')

/-- `applyDirtinessFilter` after loading `projects.json`, `deps.json` and
`tasks.json`: seed the dirty cache from the projects, key the dependency
map, and filter every task. -/
def applyDirtinessFilter (projects : List Project) (deps : List DepNode)
    (tasks : List BuildTask) (fuel : Nat) : Option (List BuildTask) :=
  (filterTasks (buildDepsMap [] deps) fuel tasks (seedCache [] projects)).map
    (fun out => out.1)

example :
    applyDirtinessFilter
      [⟨"appX", "W/app", false, [], false, false, true, ["M.as"], [], 5, 3, true, 1⟩,
       ⟨"libA", "W/libA", false, [], false, false, false, ["A.as"], [], 2, 9, false, 0⟩]
      [⟨"W/libA", [], 0, []⟩, ⟨"W/app", ["W/libA"], 1, []⟩]
      [⟨"W/libA", ["W/libA"], 1⟩, ⟨"W/app", ["W/libA", "W/app"], 2⟩] 10 =
    some [⟨"W/libA", [], 0⟩, ⟨"W/app", ["W/app"], 1⟩] := by decide

lemma isProjectDirty_cycleAB_none :
    ∀ fuel cache, cacheGet cache "A" = false → cacheGet cache "B" = false →
      isProjectDirty depsCycleAB fuel cache "A" = none ∧
      isProjectDirty depsCycleAB fuel cache "B" = none := by
  intro fuel
  induction fuel with
  | zero => intro cache _ _; exact ⟨rfl, rfl⟩
  | succ n ih =>
    intro cache hA hB
    have hfA : findNode depsCycleAB "A" = some ⟨"A", ["B"], 1, []⟩ := rfl
    have hfB : findNode depsCycleAB "B" = some ⟨"B", ["A"], 1, []⟩ := rfl
    refine ⟨?_, ?_⟩
    · simp only [isProjectDirty, hfA, hA, someDirty, (ih cache hA hB).2]
      simp
    · simp only [isProjectDirty, hfB, hB, someDirty, (ih cache hA hB).1]
      simp

/-- C4: refuted on the code.  On a dependency cycle whose projects are all
clean, the dirtiness probe never returns: the cache stores only `true`
(a seeded `false` does not short-circuit, and there is no in-progress
marking), so `isProjectDirty` recurses around the cycle forever — for
every recursion budget the embedded probe runs out of fuel, even though
both `A` and `B` are known projects seeded `false` in the cache. -/
theorem c4_isProjectDirty_clean_cycle_diverges :
    ∀ fuel, isProjectDirty depsCycleAB fuel
      (seedCache [] [⟨"A", "A", false, [], false, false, false, [], [], 1, 2, false, 0⟩,
                     ⟨"B", "B", false, [], false, false, false, [], [], 1, 2, false, 0⟩])
      "A" = none := by
  intro fuel
  have h := isProjectDirty_cycleAB_none fuel
    (seedCache [] [⟨"A", "A", false, [], false, false, false, [], [], 1, 2, false, 0⟩,
                   ⟨"B", "B", false, [], false, false, false, [], [], 1, 2, false, 0⟩])
    (by decide) (by decide)
  exact h.1

lemma cacheGet_cacheSet (cache : List (String × Bool)) (k k' : String) :
    cacheGet (cacheSet cache k) k' = if k = k' then true else cacheGet cache k' := by
  induction cache with
  | nil =>
    by_cases h : k = k'
    · subst h; simp [cacheSet, cacheGet]
    · simp [cacheSet, cacheGet, h, beq_eq_false_iff_ne.mpr h]
  | cons e rest ih =>
    obtain ⟨ek, ev⟩ := e
    by_cases he : ek = k
    · subst he
      simp only [cacheSet, beq_self_eq_true, if_pos, cacheGet]
      by_cases h : ek = k'
      · simp [h]
      · simp [h, beq_eq_false_iff_ne.mpr h]
    · have hbe : (ek == k) = false := beq_eq_false_iff_ne.mpr he
      simp only [cacheSet, hbe, Bool.false_eq_true, if_false, cacheGet]
      by_cases h : ek = k'
      · subst h
        have hkk : ¬ (k = ek) := fun hh => he hh.symm
        simp [hkk]
      · simp [beq_eq_false_iff_ne.mpr h, ih]

/-- A cache is sound when every key it maps to `true` is transitively
dirty: some project reachable from it (in the deduplicated `depsMap`) is
marked dirty in the seed cache built from `projects.json`. -/
def CacheSound (depsMap : List DepNode) (seed cache : List (String × Bool)) : Prop :=
  ∀ k, cacheGet cache k = true →
    ∃ q, Reaches depsMap k q ∧ cacheGet seed q = true

lemma someDirty_sound {depsMap : List DepNode} {seed : List (String × Bool)}
    {probe : List (String × Bool) → String →
      Option (Option Bool × List (String × Bool))}
    (hprobe : ∀ cache d v cache', CacheSound depsMap seed cache →
      probe cache d = some (v, cache') →
      CacheSound depsMap seed cache' ∧
      (v = some true → ∃ q, Reaches depsMap d q ∧ cacheGet seed q = true)) :
    ∀ (l : List String) cache b cache', CacheSound depsMap seed cache →
      someDirty probe l cache = some (b, cache') →
      CacheSound depsMap seed cache' ∧
      (b = true → ∃ d ∈ l, ∃ q, Reaches depsMap d q ∧ cacheGet seed q = true) := by
  intro l
  induction l with
  | nil =>
    intro cache b cache' hs h
    simp only [someDirty, Option.some.injEq, Prod.mk.injEq] at h
    obtain ⟨rfl, rfl⟩ := h
    exact ⟨hs, by simp⟩
  | cons d rest ih =>
    intro cache b cache' hs h
    simp only [someDirty] at h
    cases hp : probe cache d with
    | none => rw [hp] at h; exact absurd h (by simp)
    | some out =>
      obtain ⟨v, c1⟩ := out
      rw [hp] at h
      simp only at h
      obtain ⟨hs1, himp⟩ := hprobe cache d v c1 hs hp
      by_cases hv : v.getD false
      · rw [if_pos hv] at h
        simp only [Option.some.injEq, Prod.mk.injEq] at h
        obtain ⟨rfl, rfl⟩ := h
        have hvt : v = some true := by
          cases v with
          | none => simp [Option.getD] at hv
          | some b => cases b <;> simp_all
        refine ⟨hs1, fun _ => ?_⟩
        obtain ⟨q, hr, hq⟩ := himp hvt
        exact ⟨d, by simp, q, hr, hq⟩
      · rw [if_neg hv] at h
        obtain ⟨hs2, himp2⟩ := ih c1 b cache' hs1 h
        refine ⟨hs2, fun hb => ?_⟩
        obtain ⟨d', hd', hq⟩ := himp2 hb
        exact ⟨d', by simp [hd'], hq⟩

/-- Soundness of the dirtiness probe: whenever `isProjectDirty` completes
with result `true`, the probed project has a node in the dependency map
and some project reachable from it is directly dirty; the cache stays
sound throughout. -/
lemma isProjectDirty_sound (depsMap : List DepNode) (seed : List (String × Bool)) :
    ∀ fuel cache p v cache', CacheSound depsMap seed cache →
      isProjectDirty depsMap fuel cache p = some (v, cache') →
      CacheSound depsMap seed cache' ∧
      (v = some true → (findNode depsMap p).isSome ∧
        ∃ q, Reaches depsMap p q ∧ cacheGet seed q = true) := by
  intro fuel
  induction fuel with
  | zero =>
    intro cache p v cache' _ h
    exact absurd h (by simp [isProjectDirty])
  | succ n ih =>
    intro cache p v cache' hs h
    simp only [isProjectDirty] at h
    cases hfind : findNode depsMap p with
    | none =>
      rw [hfind] at h
      simp only [Option.some.injEq, Prod.mk.injEq] at h
      obtain ⟨rfl, rfl⟩ := h
      exact ⟨hs, by simp⟩
    | some node =>
      simp only [hfind] at h
      by_cases hc : cacheGet cache p
      · rw [if_pos hc] at h
        simp only [Option.some.injEq, Prod.mk.injEq] at h
        obtain ⟨rfl, rfl⟩ := h
        exact ⟨hs, fun _ => ⟨by simp [hfind], hs p hc⟩⟩
      · rw [if_neg hc] at h
        by_cases hz : node.num_dependencies = 0
        · rw [if_pos hz] at h
          simp only [Option.some.injEq, Prod.mk.injEq] at h
          obtain ⟨rfl, rfl⟩ := h
          exact ⟨hs, by simp⟩
        · rw [if_neg hz] at h
          cases hl : someDirty (isProjectDirty depsMap n)
              node.project_dependencies cache with
          | none => rw [hl] at h; exact absurd h (by simp)
          | some outl =>
            obtain ⟨isDirty, c1⟩ := outl
            rw [hl] at h
            simp only at h
            have hprobe : ∀ cache d v cache', CacheSound depsMap seed cache →
                isProjectDirty depsMap n cache d = some (v, cache') →
                CacheSound depsMap seed cache' ∧
                (v = some true → ∃ q, Reaches depsMap d q ∧ cacheGet seed q = true) :=
              fun cache d v cache' hsc hp =>
                ⟨(ih cache d v cache' hsc hp).1,
                 fun hv => ((ih cache d v cache' hsc hp).2 hv).2⟩
            obtain ⟨hs1, himp⟩ := someDirty_sound hprobe
              node.project_dependencies cache isDirty c1 hs hl
            have hdeps_of : depsOf depsMap p = node.project_dependencies := by
              rw [depsOf, hfind]
            have htrans : isDirty = true →
                ∃ q, Reaches depsMap p q ∧ cacheGet seed q = true := by
              intro hb
              obtain ⟨d, hd, q, hr, hq⟩ := himp hb
              exact ⟨q, Reaches.step (hdeps_of ▸ hd) hr, hq⟩
            by_cases hm : isDirty && !(cacheGet c1 p)
            · rw [if_pos hm] at h
              simp only [Option.some.injEq, Prod.mk.injEq] at h
              obtain ⟨rfl, rfl⟩ := h
              have hb : isDirty = true := by
                have h2 := hm
                simp only [Bool.and_eq_true] at h2
                exact h2.1
              refine ⟨?_, fun _ => ⟨by simp [hfind], htrans hb⟩⟩
              intro k hk
              rw [cacheGet_cacheSet] at hk
              by_cases hkp : p = k
              · subst hkp; exact htrans hb
              · rw [if_neg hkp] at hk
                exact hs1 k hk
            · rw [if_neg hm] at h
              simp only [Option.some.injEq, Prod.mk.injEq] at h
              obtain ⟨rfl, rfl⟩ := h
              refine ⟨hs1, fun hv => ⟨by simp [hfind], ?_⟩⟩
              have hb : isDirty = true := by
                simpa using congrArg (fun o => o.getD false) hv
              exact htrans hb

lemma filterTaskEntries_sound (depsMap : List DepNode) (seed : List (String × Bool))
    (fuel : Nat) :
    ∀ (l : List String) cache kept cache', CacheSound depsMap seed cache →
      filterTaskEntries depsMap fuel l cache = some (kept, cache') →
      CacheSound depsMap seed cache' ∧ kept.Sublist l ∧
      ∀ e ∈ kept, (findNode depsMap e).isSome ∧
        ∃ q, Reaches depsMap e q ∧ cacheGet seed q = true := by
  intro l
  induction l with
  | nil =>
    intro cache kept cache' hs h
    simp only [filterTaskEntries, Option.some.injEq, Prod.mk.injEq] at h
    obtain ⟨rfl, rfl⟩ := h
    exact ⟨hs, List.Sublist.refl _, by simp⟩
  | cons e rest ih =>
    intro cache kept cache' hs h
    simp only [filterTaskEntries] at h
    cases hp : isProjectDirty depsMap fuel cache e with
    | none => rw [hp] at h; exact absurd h (by simp)
    | some out =>
      obtain ⟨v, c1⟩ := out
      rw [hp] at h
      simp only at h
      obtain ⟨hs1, himp⟩ := isProjectDirty_sound depsMap seed fuel cache e v c1 hs hp
      cases hrec : filterTaskEntries depsMap fuel rest c1 with
      | none => rw [hrec] at h; exact absurd h (by simp)
      | some outr =>
        obtain ⟨kept1, c2⟩ := outr
        rw [hrec] at h
        simp only [Option.some.injEq, Prod.mk.injEq] at h
        obtain ⟨rfl, rfl⟩ := h
        obtain ⟨hs2, hsub, hprops⟩ := ih c1 kept1 _ hs1 hrec
        by_cases hv : v.getD false
        · rw [if_pos hv]
          have hvt : v = some true := by
            cases v with
            | none => simp [Option.getD] at hv
            | some b => cases b <;> simp_all
          refine ⟨hs2, List.Sublist.cons₂ e hsub, ?_⟩
          intro x hx
          rcases List.mem_cons.mp hx with rfl | hx'
          · exact himp hvt
          · exact hprops x hx'
        · rw [if_neg hv]
          exact ⟨hs2, List.Sublist.cons e hsub, hprops⟩

lemma filterTasks_sound (depsMap : List DepNode) (seed : List (String × Bool))
    (fuel : Nat) :
    ∀ (ts : List BuildTask) cache ts' cache', CacheSound depsMap seed cache →
      filterTasks depsMap fuel ts cache = some (ts', cache') →
      List.Forall₂ (fun t t' =>
        t'.project_path = t.project_path ∧
        t'.project_build_tasks.Sublist t.project_build_tasks ∧
        t'.num_tasks = t'.project_build_tasks.length ∧
        ∀ e ∈ t'.project_build_tasks, (findNode depsMap e).isSome ∧
          ∃ q, Reaches depsMap e q ∧ cacheGet seed q = true) ts ts' := by
  intro ts
  induction ts with
  | nil =>
    intro cache ts' cache' _ h
    simp only [filterTasks, Option.some.injEq, Prod.mk.injEq] at h
    obtain ⟨rfl, rfl⟩ := h
    exact List.Forall₂.nil
  | cons t rest ih =>
    intro cache ts' cache' hs h
    simp only [filterTasks] at h
    cases hf : filterTaskEntries depsMap fuel t.project_build_tasks cache with
    | none => rw [hf] at h; exact absurd h (by simp)
    | some out =>
      obtain ⟨kept, c1⟩ := out
      rw [hf] at h
      simp only at h
      cases hr : filterTasks depsMap fuel rest c1 with
      | none => rw [hr] at h; exact absurd h (by simp)
      | some outr =>
        obtain ⟨ts1, c2⟩ := outr
        rw [hr] at h
        simp only [Option.some.injEq, Prod.mk.injEq] at h
        obtain ⟨rfl, rfl⟩ := h
        obtain ⟨hs1, hsub, hprops⟩ :=
          filterTaskEntries_sound depsMap seed fuel t.project_build_tasks
            cache kept c1 hs hf
        exact List.Forall₂.cons ⟨rfl, hsub, rfl, hprops⟩ (ih c1 ts1 _ hs1 hr)

/-- C3: confirmed.  When `applyDirtinessFilter` completes, every entry
retained in any task's `project_build_tasks` (i) was in the original
list — retained lists are sublists, so transitively clean entries are
removed, (ii) has a node in the dependency map keyed from `deps.json`
(entries with no node are removed), and (iii) is transitively dirty: some
project reachable from it along `deps.json` dependency edges is marked
dirty in the cache seeded from the `is_dirty` flags of `projects.json`
(the entry itself included, via the reflexive reachability case); and
each rewritten task's `num_tasks` equals its new list length. -/
theorem c3_applyDirtinessFilter_transitively_dirty
    (projects : List Project) (deps : List DepNode) (tasks : List BuildTask)
    (fuel : Nat) (tasks' : List BuildTask)
    (h : applyDirtinessFilter projects deps tasks fuel = some tasks') :
    List.Forall₂ (fun t t' =>
      t'.project_path = t.project_path ∧
      t'.project_build_tasks.Sublist t.project_build_tasks ∧
      t'.num_tasks = t'.project_build_tasks.length ∧
      ∀ e ∈ t'.project_build_tasks,
        (findNode (buildDepsMap [] deps) e).isSome ∧
        ∃ q, Reaches (buildDepsMap [] deps) e q ∧
          cacheGet (seedCache [] projects) q = true) tasks tasks' := by
  unfold applyDirtinessFilter at h
  cases hft : filterTasks (buildDepsMap [] deps) fuel tasks (seedCache [] projects) with
  | none => rw [hft] at h; exact absurd h (by simp)
  | some out =>
    obtain ⟨ts1, c1⟩ := out
    rw [hft] at h
    simp only [Option.map] at h
    simp only [Option.some.injEq] at h
    subst h
    refine filterTasks_sound (buildDepsMap [] deps) (seedCache [] projects)
      fuel tasks (seedCache [] projects) ts1 c1 ?_ hft
    intro k hk
    exact ⟨k, Reaches.refl k, hk⟩

/-- Witness for C3 on the concrete scenario-S5 inputs: an app `W/app`
(dirty) depending on a clean library `W/libA`; the filter keeps only the
dirty entry and updates `num_tasks`. -/
theorem c3_applyDirtinessFilter_transitively_dirty_witness :
    List.Forall₂ (fun (t t' : BuildTask) =>
      t'.project_path = t.project_path ∧
      t'.project_build_tasks.Sublist t.project_build_tasks ∧
      t'.num_tasks = t'.project_build_tasks.length ∧
      ∀ e ∈ t'.project_build_tasks,
        (findNode (buildDepsMap []
          [⟨"W/libA", [], 0, []⟩, ⟨"W/app", ["W/libA"], 1, []⟩]) e).isSome ∧
        ∃ q, Reaches (buildDepsMap []
            [⟨"W/libA", [], 0, []⟩, ⟨"W/app", ["W/libA"], 1, []⟩]) e q ∧
          cacheGet (seedCache []
            [⟨"appX", "W/app", false, [], false, false, true, ["M.as"], [], 5, 3, true, 1⟩,
             ⟨"libA", "W/libA", false, [], false, false, false, ["A.as"], [], 2, 9, false, 0⟩]) q = true)
      [⟨"W/libA", ["W/libA"], 1⟩, ⟨"W/app", ["W/libA", "W/app"], 2⟩]
      [⟨"W/libA", [], 0⟩, ⟨"W/app", ["W/app"], 1⟩] :=
  c3_applyDirtinessFilter_transitively_dirty
    [⟨"appX", "W/app", false, [], false, false, true, ["M.as"], [], 5, 3, true, 1⟩,
     ⟨"libA", "W/libA", false, [], false, false, false, ["A.as"], [], 2, 9, false, 0⟩]
    [⟨"W/libA", [], 0, []⟩, ⟨"W/app", ["W/libA"], 1, []⟩]
    [⟨"W/libA", ["W/libA"], 1⟩, ⟨"W/app", ["W/libA", "W/app"], 2⟩]
    10
    [⟨"W/libA", [], 0⟩, ⟨"W/app", ["W/app"], 1⟩]
    (by decide)

/-! ## Path utilities (`utils.js`) and coupling resolution (`scan_tools.js`) -/

/-- `path.join` of two segments, in the forward-slash normal form the
pipeline compares with (spec §9 requires uniform forward slashes). -/
def pjoin (a b : String) : String := a ++ "/" ++ b

/-- `suffix`-test on strings (`String.prototype.endsWith`), computed on
the underlying character lists. -/
def strEndsWith (s suffix : String) : Bool := suffix.data.isSuffixOf s.data

/-- Prefix test on strings (`String.prototype.startsWith`), computed on
the underlying character lists. -/
def strStartsWith (s pre : String) : Bool := pre.data.isPrefixOf s.data

/-- Character-wise replacement (`String.prototype.replace` with a
single-character pattern), computed on the underlying character lists. -/
def mapChars (f : Char → Char) (s : String) : String := String.mk (s.data.map f)

/-- `String.prototype.split` with a single-character separator, computed
on the underlying character lists. -/
def splitOnChar (sep : Char) : List Char → List (List Char)
  | [] => [[]]
  | c :: rest =>
    let r := splitOnChar sep rest
    if c = sep then [] :: r
    else (c :: r.headD []) :: r.tailD []

def strSplitOnChar (sep : Char) (s : String) : List String :=
  (splitOnChar sep s.data).map String.mk

/-- `toForwardSlash` from `utils.js`: every run of one or more backslashes
becomes a single forward slash (the flag records whether the previous
character was part of a backslash run). -/
def collapseBackslashes : Bool → List Char → List Char
  | _, [] => []
  | prevBackslash, c :: rest =>
    if c = '\\' then
      if prevBackslash then collapseBackslashes true rest
      else '/' :: collapseBackslashes true rest
    else c :: collapseBackslashes false rest

def toForwardSlash (path : String) : String :=
  String.mk (collapseBackslashes false path.data)

/-- `relPathToPackageName` from `utils.js`: replace backslashes with
slashes, split on `/`, drop the basename, join with dots; the empty
package becomes `null`. -/
def relPathToPackageName (relPath : String) : Option String :=
  let pkg := String.intercalate "."
    ((strSplitOnChar '/' (mapChars (fun c => if c = '\\' then '/' else c) relPath)).dropLast)
  if pkg = "" then none else some pkg

/-- `splitQualifiedName` from `utils.js`: split a dotted name at its last
dot into (package, simple name); no dot means a `null` package. -/
def splitQualifiedName (fullName : String) : Option String × String :=
  let parts := strSplitOnChar '.' fullName
  if parts.length ≤ 1 then (none, fullName)
  else (some (String.intercalate "." parts.dropLast), parts.getLastD fullName)

/-- `packageToRelPath` from `utils.js`: dots to slashes plus
`/<class>.as`, or just `<class>.as` with a `null` package. -/
def packageToRelPath (packageName : Option String) (className : String) : String :=
  match packageName with
  | some pkg => mapChars (fun c => if c = '.' then '/' else c) pkg ++ "/" ++ className ++ ".as"
  | none => className ++ ".as"

/-- One coupling record of `classes.json`. -/
structure Coupling where
  name : String
  package : Option String
  expected_relative_path : String
  coupling_type : String
  matching_project : Option String
  expected_class_file : Option String
  class_exists : Bool
deriving Repr, DecidableEq

/-- The project-scanning loop of `resolveDependency`: walk the entries of
`projectFilesMap` in order; on the first project whose class-file list has
a suffix match, if the expected file is on disk, stop with that match;
otherwise keep scanning. -/
def resolveLoop (disk : List String) (inferred : String) :
    List (String × List String) → Option (String × String)
  | [] => none
  | (projectDir, classFiles) :: rest =>
    if classFiles.any (fun file => strEndsWith file inferred) then
      let expectedClassFile := pjoin projectDir (pjoin "src" inferred)
      if disk.contains expectedClassFile then some (projectDir, expectedClassFile)
      else resolveLoop disk inferred rest
    else resolveLoop disk inferred rest

/-- `resolveDependency` from `scan_tools.js`: the coupling record pushed
for one import or fully-qualified instantiation (`fs.existsSync` is the
membership test in `disk`). -/
def resolveDependency (disk : List String)
    (projectFilesMap : List (String × List String))
    (packageName : Option String) (className couplingType : String) : Coupling :=
  let inferred := packageToRelPath packageName className
  match resolveLoop disk inferred projectFilesMap with
  | some found =>
    { name := className, package := packageName,
      expected_relative_path := inferred, coupling_type := couplingType,
      matching_project := some found.1,
      expected_class_file := some found.2, class_exists := true }
  | none =>
    { name := className, package := packageName,
      expected_relative_path := inferred, coupling_type := couplingType,
      matching_project := none, expected_class_file := none,
      class_exists := false }

/-- The body of the `dependencies.forEach` loop of
`manuallyAddDependencies` (`patch_tools.js`): the synthetic `patch`
coupling computed for one dependency project, or `none` when one of its
validity checks fails (dependency not on disk, no catalog entry, no class
files, or expected class file not on disk). -/
def patchCouplingFor (disk : List String) (projects : List Project)
    (dependencyProject : String) : Option Coupling :=
  if disk.contains dependencyProject then
    match projects.find? (fun entry => entry.project_home_dir == dependencyProject) with
    | none => none
    | some depProjectEntry =>
      match depProjectEntry.classFiles with
      | [] => none
      | depProjectClass :: _ =>
        let expected_class_file :=
          pjoin depProjectEntry.project_home_dir (pjoin "src" depProjectClass)
        if disk.contains expected_class_file then
          let expected_relative_path := toForwardSlash depProjectClass
          let pkg := relPathToPackageName expected_relative_path
          some { name := match pkg with
                   | some p => (splitQualifiedName p).2
                   | none => (strSplitOnChar '.' depProjectClass).headD depProjectClass,
                 package := pkg,
                 expected_relative_path := expected_relative_path,
                 coupling_type := "patch",
                 matching_project := some depProjectEntry.project_home_dir,
                 expected_class_file := some expected_class_file,
                 class_exists := true }
        else none
  else none

lemma resolveLoop_mem_disk (disk : List String) (inferred : String) :
    ∀ (pmap : List (String × List String)) (projectDir file : String),
      resolveLoop disk inferred pmap = some (projectDir, file) → file ∈ disk := by
  intro pmap
  induction pmap with
  | nil => intro p f h; exact absurd h (by simp [resolveLoop])
  | cons e rest ih =>
    obtain ⟨pd, cfs⟩ := e
    intro p f h
    simp only [resolveLoop] at h
    by_cases hany : cfs.any (fun file => strEndsWith file inferred)
    · rw [if_pos hany] at h
      by_cases hdisk : disk.contains (pjoin pd (pjoin "src" inferred))
      · rw [if_pos hdisk] at h
        simp only [Option.some.injEq, Prod.mk.injEq] at h
        rw [← h.2]
        exact List.mem_of_elem_eq_true hdisk
      · rw [if_neg hdisk] at h
        exact ih p f h
    · rw [if_neg hany] at h
      exact ih p f h

/-- C6: confirmed.  A coupling emitted by the deep scanner's
`resolveDependency` with `class_exists = true` carries a non-null
`matching_project` and an `expected_class_file` that is on disk, and an
unresolved coupling carries `class_exists = false` with null
`matching_project` and `expected_class_file`; likewise every `patch`
coupling produced by the manual-dependency patcher has
`class_exists = true`, a non-null `matching_project`, and an on-disk
`expected_class_file`. -/
theorem c6_class_exists_implies_on_disk :
    (∀ (disk : List String) (pmap : List (String × List String))
        (pkg : Option String) (cls ty : String),
      ((resolveDependency disk pmap pkg cls ty).class_exists = true →
        ∃ proj file,
          (resolveDependency disk pmap pkg cls ty).matching_project = some proj ∧
          (resolveDependency disk pmap pkg cls ty).expected_class_file = some file ∧
          file ∈ disk) ∧
      ((resolveDependency disk pmap pkg cls ty).class_exists = false →
        (resolveDependency disk pmap pkg cls ty).matching_project = none ∧
        (resolveDependency disk pmap pkg cls ty).expected_class_file = none)) ∧
    (∀ (disk : List String) (projects : List Project) (dep : String) (c : Coupling),
      patchCouplingFor disk projects dep = some c →
      c.class_exists = true ∧
      ∃ proj file, c.matching_project = some proj ∧
        c.expected_class_file = some file ∧ file ∈ disk) := by
  constructor
  · intro disk pmap pkg cls ty
    simp only [resolveDependency]
    cases hloop : resolveLoop disk (packageToRelPath pkg cls) pmap with
    | none =>
      simp only [hloop]
      exact ⟨by simp, by simp⟩
    | some found =>
      obtain ⟨proj, file⟩ := found
      simp only [hloop]
      refine ⟨fun _ => ⟨proj, file, by simp, by simp, ?_⟩, by simp⟩
      exact resolveLoop_mem_disk disk (packageToRelPath pkg cls) pmap proj file hloop
  · intro disk projects dep c h
    unfold patchCouplingFor at h
    by_cases h1 : disk.contains dep
    · rw [if_pos h1] at h
      cases hfind : projects.find? (fun entry => entry.project_home_dir == dep) with
      | none =>
        rw [hfind] at h
        exact absurd h (by simp)
      | some depProjectEntry =>
        simp only [hfind] at h
        cases hcf : depProjectEntry.classFiles with
        | nil =>
          simp only [hcf] at h
          exact absurd h (by simp)
        | cons depProjectClass restCf =>
          simp only [hcf] at h
          by_cases h2 : disk.contains
              (pjoin depProjectEntry.project_home_dir (pjoin "src" depProjectClass))
          · rw [if_pos h2] at h
            simp only [Option.some.injEq] at h
            subst h
            exact ⟨rfl, depProjectEntry.project_home_dir, _, rfl, rfl,
              List.mem_of_elem_eq_true h2⟩
          · rw [if_neg h2] at h
            exact absurd h (by simp)
    · rw [if_neg h1] at h
      exact absurd h (by simp)

/-- Witness for C6: a resolved import on a one-project workspace and a
patch coupling on a valid amendment, both checked concretely. -/
theorem c6_class_exists_implies_on_disk_witness :
    (∃ proj file,
      (resolveDependency ["W/libA/src/a/A.as"] [("W/libA", ["W/libA/src/a/A.as"])]
        (some "a") "A" "import").matching_project = some proj ∧
      (resolveDependency ["W/libA/src/a/A.as"] [("W/libA", ["W/libA/src/a/A.as"])]
        (some "a") "A" "import").expected_class_file = some file ∧
      file ∈ ["W/libA/src/a/A.as"]) ∧
    ((resolveDependency [] [] (some "z") "Z" "import").matching_project = none ∧
      (resolveDependency [] [] (some "z") "Z" "import").expected_class_file = none) ∧
    ∃ c, patchCouplingFor ["W/libA", "W/libA/src/a/A.as"]
        [⟨"libA", "W/libA", false, [], false, false, false, ["a/A.as"], [], 2, 9, false, 0⟩]
        "W/libA" = some c ∧
      c.class_exists = true ∧
      ∃ proj file, c.matching_project = some proj ∧
        c.expected_class_file = some file ∧
        file ∈ ["W/libA", "W/libA/src/a/A.as"] := by
  refine ⟨?_, ?_, ?_⟩
  · exact (c6_class_exists_implies_on_disk.1 ["W/libA/src/a/A.as"]
      [("W/libA", ["W/libA/src/a/A.as"])] (some "a") "A" "import").1 (by decide)
  · exact (c6_class_exists_implies_on_disk.1 [] [] (some "z") "Z" "import").2 (by decide)
  · refine ⟨patchCouplingFor ["W/libA", "W/libA/src/a/A.as"]
      [⟨"libA", "W/libA", false, [], false, false, false, ["a/A.as"], [], 2, 9, false, 0⟩]
      "W/libA" |>.get (by decide), ?_, ?_⟩
    · simp [Option.some_get]
    · exact c6_class_exists_implies_on_disk.2 ["W/libA", "W/libA/src/a/A.as"]
        [⟨"libA", "W/libA", false, [], false, false, false, ["a/A.as"], [], 2, 9, false, 0⟩]
        "W/libA" _ (by simp [Option.some_get])

/-! ## Config Emitter (`file_tools.js`, `writeConfig`) -/

/-- `sanitizeFileName` from `writeConfig`: every character outside
`[a-zA-Z0-9_-]` becomes an underscore. -/
def sanitizeFileName (name : String) : String :=
  mapChars (fun c =>
    if ('a' ≤ c ∧ c ≤ 'z') ∨ ('A' ≤ c ∧ c ≤ 'Z') ∨ ('0' ≤ c ∧ c ≤ '9') ∨
       c = '_' ∨ c = '-'
    then c else '_') name

/-- `path.parse(filePath).name`: the basename of the path without its last
extension (forward-slash paths, matching the pipeline's normal form). -/
def pathParseName (filePath : String) : String :=
  let base := (strSplitOnChar '/' filePath).getLastD ""
  let parts := strSplitOnChar '.' base
  if parts.length ≤ 1 then base else String.intercalate "." parts.dropLast

/-- One external- or internal-worker registration record passed to
`writeConfig`. -/
structure WorkerInfo where
  project : String
  workerFile : String
  workerOutput : String
deriving Repr, DecidableEq

/-- `is_app_probability >= 0.5 ? "app" : "lib"` from `writeConfig`. -/
def projectTypeOf (project : Project) : String :=
  if (0.5 : ℚ) ≤ project.is_app_probability then "app" else "lib"

/-- The app main class of `writeConfig`: the parsed name of the first
root class, or the literal `Main` when the project has none. -/
def mainClassOf (root_classes : List RootClass) : String :=
  match root_classes with
  | rc :: _ => pathParseName rc.file_path
  | [] => "Main"

/-- `externalWorkers.find((workerInfo) => workerInfo.project === projectPath)`
(`null`/empty lists both yield no record). -/
def externalWorkerFor (externalWorkers : List WorkerInfo) (projectPath : String) :
    Option WorkerInfo :=
  externalWorkers.find? (fun workerInfo => workerInfo.project == projectPath)

/-- The `compilerOptions.output` expression of `writeConfig`
(`file_tools.js` lines 176–181) for one project: `.swc` under the bin
directory for a library, the caller-supplied `workerOutput` for an app
registered as an external worker, `.swf` under the bin directory
otherwise. -/
def configOutput (deps : List DepNode) (externalWorkers : List WorkerInfo)
    (bin_dir : String) (project : Project) : String :=
  let projectPath := project.project_home_dir
  let projectType := projectTypeOf project
  let root_classes := match findNode deps projectPath with
    | some projectDeps => projectDeps.root_classes
    | none => []
  let mainClass := mainClassOf root_classes
  let externalWorkerInfo := externalWorkerFor externalWorkers projectPath
  if projectType = "lib" then
    bin_dir ++ "/" ++ sanitizeFileName project.project_name ++ ".swc"
  else
    match externalWorkerInfo with
    | some workerInfo => workerInfo.workerOutput
    | none => bin_dir ++ "/" ++ mainClass ++ ".swf"

/-- C7: confirmed.  For every project: a library's emitted
`compilerOptions.output` is `<bin_dir>/<sanitized_project_name>.swc`
(hence ends in `.swc`); an app not registered as an external worker gets
`<bin_dir>/<main_class>.swf` (hence ends in `.swf`); an app registered as
an external worker gets the caller-supplied `workerOutput` verbatim.
Suffixes are stated on the underlying character lists. -/
theorem c7_writeConfig_output (deps : List DepNode)
    (externalWorkers : List WorkerInfo) (bin_dir : String) (project : Project) :
    (projectTypeOf project = "lib" →
      configOutput deps externalWorkers bin_dir project =
        bin_dir ++ "/" ++ sanitizeFileName project.project_name ++ ".swc" ∧
      ".swc".data <:+ (configOutput deps externalWorkers bin_dir project).data) ∧
    (projectTypeOf project = "app" →
      externalWorkerFor externalWorkers project.project_home_dir = none →
      configOutput deps externalWorkers bin_dir project =
        bin_dir ++ "/" ++ mainClassOf (match findNode deps project.project_home_dir with
          | some projectDeps => projectDeps.root_classes
          | none => []) ++ ".swf" ∧
      ".swf".data <:+ (configOutput deps externalWorkers bin_dir project).data) ∧
    (projectTypeOf project = "app" →
      ∀ workerInfo,
        externalWorkerFor externalWorkers project.project_home_dir = some workerInfo →
        configOutput deps externalWorkers bin_dir project = workerInfo.workerOutput) := by
  have htype : projectTypeOf project = "app" ∨ projectTypeOf project = "lib" := by
    unfold projectTypeOf
    by_cases h : (0.5 : ℚ) ≤ project.is_app_probability
    · left; rw [if_pos h]
    · right; rw [if_neg h]
  refine ⟨?_, ?_, ?_⟩
  · intro hlib
    constructor
    · unfold configOutput
      rw [if_pos hlib]
    · unfold configOutput
      rw [if_pos hlib]
      rw [show bin_dir ++ "/" ++ sanitizeFileName project.project_name ++ ".swc" =
        (bin_dir ++ "/" ++ sanitizeFileName project.project_name) ++ ".swc" from rfl]
      rw [String.data_append]
      exact List.suffix_append _ _
  · intro happ hnone
    have hne : ¬ (projectTypeOf project = "lib") := by
      rw [happ]; intro hcon; exact absurd hcon (by decide)
    constructor
    · unfold configOutput
      rw [if_neg hne, hnone]
    · unfold configOutput
      rw [if_neg hne, hnone]
      rw [show (bin_dir ++ "/" ++ mainClassOf (match findNode deps project.project_home_dir with
          | some projectDeps => projectDeps.root_classes
          | none => []) ++ ".swf") =
        ((bin_dir ++ "/" ++ mainClassOf (match findNode deps project.project_home_dir with
          | some projectDeps => projectDeps.root_classes
          | none => [])) ++ ".swf") from rfl]
      rw [String.data_append]
      exact List.suffix_append _ _
  · intro happ workerInfo hsome
    have hne : ¬ (projectTypeOf project = "lib") := by
      rw [happ]; intro hcon; exact absurd hcon (by decide)
    unfold configOutput
    rw [if_neg hne, hsome]

/-- Witness for C7: a concrete library, a concrete app without a worker
registration, and a concrete app registered as an external worker. -/
theorem c7_writeConfig_output_witness :
    (configOutput [] [] "bin"
        ⟨"lib A", "W/libA", false, [], false, false, false, [], [], 0, 0, false, 0⟩ =
      "bin/lib_A.swc" ∧
     ".swc".data <:+ (configOutput [] [] "bin"
        ⟨"lib A", "W/libA", false, [], false, false, false, [], [], 0, 0, false, 0⟩).data) ∧
    (configOutput [⟨"W/app", [], 0, [⟨"W/app/src/m/M.as", some "m"⟩]⟩] [] "bin"
        ⟨"app", "W/app", true, [], false, false, true, [], [], 0, 0, false, 1⟩ =
      "bin/M.swf" ∧
     ".swf".data <:+ (configOutput [⟨"W/app", [], 0, [⟨"W/app/src/m/M.as", some "m"⟩]⟩] [] "bin"
        ⟨"app", "W/app", true, [], false, false, true, [], [], 0, 0, false, 1⟩).data) ∧
    (configOutput [] [⟨"W/app", "W/app/src/Wk.as", "out/Wk.swf"⟩] "bin"
        ⟨"app", "W/app", true, [], false, false, true, [], [], 0, 0, false, 1⟩ =
      "out/Wk.swf") := by
  refine ⟨⟨?_, ?_⟩, ⟨?_, ?_⟩, ?_⟩
  · have h := (c7_writeConfig_output [] [] "bin"
      ⟨"lib A", "W/libA", false, [], false, false, false, [], [], 0, 0, false, 0⟩).1
      (by norm_num [projectTypeOf])
    rw [h.1]
    decide
  · exact ((c7_writeConfig_output [] [] "bin"
      ⟨"lib A", "W/libA", false, [], false, false, false, [], [], 0, 0, false, 0⟩).1
      (by norm_num [projectTypeOf])).2
  · have h := ((c7_writeConfig_output [⟨"W/app", [], 0, [⟨"W/app/src/m/M.as", some "m"⟩]⟩] [] "bin"
      ⟨"app", "W/app", true, [], false, false, true, [], [], 0, 0, false, 1⟩).2.1
      (by norm_num [projectTypeOf]) (by decide))
    rw [h.1]
    decide
  · exact ((c7_writeConfig_output [⟨"W/app", [], 0, [⟨"W/app/src/m/M.as", some "m"⟩]⟩] [] "bin"
      ⟨"app", "W/app", true, [], false, false, true, [], [], 0, 0, false, 1⟩).2.1
      (by norm_num [projectTypeOf]) (by decide)).2
  · exact (c7_writeConfig_output [] [⟨"W/app", "W/app/src/Wk.as", "out/Wk.swf"⟩] "bin"
      ⟨"app", "W/app", true, [], false, false, true, [], [], 0, 0, false, 1⟩).2.2
      (by norm_num [projectTypeOf]) ⟨"W/app", "W/app/src/Wk.as", "out/Wk.swf"⟩ (by decide)

/-! ## Editor settings (`file_tools.js`, `writeVSCSettings`) -/

/-- Read of `object[key]` on a JavaScript object modelled as an
association list (`none` = `undefined`). -/
def objGet : List (String × String) → String → Option String
  | [], _ => none
  | e :: rest, key => if e.1 == key then some e.2 else objGet rest key

/-- `object[key] = value`: overwrite the entry if present, append it
otherwise. -/
def objSet (obj : List (String × String)) (key value : String) :
    List (String × String) :=
  match obj with
  | [] => [(key, value)]
  | e :: rest => if e.1 == key then (e.1, value) :: rest else e :: objSet rest key value

/-- `delete object[key]`. -/
def objDelete : List (String × String) → String → List (String × String)
  | [], _ => []
  | e :: rest, key =>
    if e.1 == key then objDelete rest key else e :: objDelete rest key

/-- The `$sdk` alias expansion at the top of `writeVSCSettings`
(`file_tools.js` lines 241–244), which runs on the caller's settings
object before any project is visited:
`if (settings["$sdk"]) { settings["as3mxml.sdk.framework"] = settings["$sdk"]; delete settings["$sdk"]; }`.
The guard is JavaScript truthiness, so an empty-string value is not
expanded. -/
def expandSdkAlias (settings : List (String × String)) : List (String × String) :=
  match objGet settings "$sdk" with
  | some v =>
    if v ≠ "" then objDelete (objSet settings "as3mxml.sdk.framework" v) "$sdk"
    else settings
  | none => settings

/-- C10 counterexample: the claim states that whenever the settings
object contains the key `$sdk` the key is deleted and re-inserted under
`as3mxml.sdk.framework`; but the source guards the expansion with a
truthiness test, so an object containing `$sdk` with the (falsy) empty
string keeps `$sdk` and never gains the expanded key. -/
theorem c10_counterexample_falsy_sdk :
    objGet (expandSdkAlias [("$sdk", "")]) "$sdk" = some "" ∧
    objGet (expandSdkAlias [("$sdk", "")]) "as3mxml.sdk.framework" = none := by
  decide

lemma objGet_objDelete_self (obj : List (String × String)) (key : String) :
    objGet (objDelete obj key) key = none := by
  induction obj with
  | nil => rfl
  | cons e rest ih =>
    by_cases h : e.1 == key
    · simpa [objDelete, h] using ih
    · simpa [objDelete, objGet, h] using ih

lemma objGet_objDelete_ne (obj : List (String × String)) (key key' : String)
    (hne : (key' == key) = false) :
    objGet (objDelete obj key) key' = objGet obj key' := by
  induction obj with
  | nil => rfl
  | cons e rest ih =>
    by_cases h : e.1 == key
    · have he : e.1 = key := by simpa using h
      have h2 : (e.1 == key') = false := by
        rw [he]
        exact beq_eq_false_iff_ne.mpr (fun hh =>
          (by simpa using hne : key' ≠ key) hh.symm)
      simp [objDelete, objGet, h, h2, ih]
    · by_cases h3 : e.1 == key'
      · simp [objDelete, objGet, h, h3]
      · simp [objDelete, objGet, h, h3, ih]

lemma objGet_objSet_self (obj : List (String × String)) (key value : String) :
    objGet (objSet obj key value) key = some value := by
  induction obj with
  | nil => simp [objSet, objGet]
  | cons e rest ih =>
    by_cases h : e.1 == key
    · simp [objSet, h, objGet]
    · simp [objSet, h, objGet, ih]

/-- C10 amended: `writeVSCSettings` rewrites the caller-supplied settings
object before any project file is written — when the object contains
`$sdk` with a truthy (non-empty) value `v`, the `$sdk` key is gone
afterwards and `as3mxml.sdk.framework` carries `v`.  (As the
counterexample shows, a falsy `$sdk` value such as the empty string is
left untouched, so the claim's unconditional "contains the key" reading
fails.) -/
theorem c10_expandSdkAlias_truthy (settings : List (String × String)) (v : String)
    (hget : objGet settings "$sdk" = some v) (hne : v ≠ "") :
    objGet (expandSdkAlias settings) "$sdk" = none ∧
    objGet (expandSdkAlias settings) "as3mxml.sdk.framework" = some v := by
  simp only [expandSdkAlias, hget]
  rw [if_pos hne]
  constructor
  · exact objGet_objDelete_self _ _
  · rw [objGet_objDelete_ne _ _ _ (by decide)]
    exact objGet_objSet_self _ _ _

/-- Witness for C10's amended statement at a concrete settings object. -/
theorem c10_expandSdkAlias_truthy_witness :
    objGet (expandSdkAlias [("$sdk", "/sdk/air"), ("other", "x")]) "$sdk" = none ∧
    objGet (expandSdkAlias [("$sdk", "/sdk/air"), ("other", "x")])
      "as3mxml.sdk.framework" = some "/sdk/air" :=
  c10_expandSdkAlias_truthy [("$sdk", "/sdk/air"), ("other", "x")] "/sdk/air"
    (by decide) (by decide)

/-! ## Shallow scanner (`scan_tools.js`, `doShallowScan`) -/

/-- A file-system tree node (`fs.Dirent` view): files carry the `mtimeMs`
and `ctimeMs` stats the scanner reads. -/
inductive FSEntry where
  | file (name : String) (mtime ctime : Nat)
  | dir (name : String) (children : List FSEntry)

def FSEntry.entryName : FSEntry → String
  | .file n _ _ => n
  | .dir n _ => n

def FSEntry.isDir : FSEntry → Bool
  | .dir _ _ => true
  | .file _ _ _ => false

def FSEntry.isFile : FSEntry → Bool
  | .file _ _ _ => true
  | .dir _ _ => false

/-- `entries.find((entry) => entry.name === n && entry.isDirectory())`,
returning the directory's children. -/
def findDirChild (entries : List FSEntry) (n : String) : Option (List FSEntry) :=
  match entries.find? (fun e => e.entryName == n && e.isDir) with
  | some (.dir _ cs) => some cs
  | _ => none

/-- `fs.existsSync(path.join(dir, n))` for a child of a known directory:
any entry (file or directory) with that name. -/
def hasChildNamed (entries : List FSEntry) (n : String) : Bool :=
  entries.any (fun e => e.entryName == n)

/-- The nested-project check of `scanDir`: some directory child of `src`
itself contains an entry named `src`. -/
def nestedSrcsExist (srcChildren : List FSEntry) : Bool :=
  srcChildren.any (fun e => match e with
    | .dir _ cs => hasChildNamed cs "src"
    | .file _ _ _ => false)

/-- `path.basename(dir).replace(/[^a-zA-Z0-9$_\-\.]/g, "")`. -/
def sanitizeProjectName (name : String) : String :=
  String.mk (name.data.filter (fun c =>
    decide (('a' ≤ c ∧ c ≤ 'z') ∨ ('A' ≤ c ∧ c ≤ 'Z') ∨ ('0' ≤ c ∧ c ≤ '9') ∨
      c = '$' ∨ c = '_' ∨ c = '-' ∨ c = '.')))

def isClassFileName (n : String) : Bool :=
  strEndsWith n ".as" || strEndsWith n ".mxml" || strEndsWith n ".fxg"

/-- `itemName.split(".")[0]`. -/
def baseClassName (n : String) : String :=
  (strSplitOnChar '.' n).headD n

/-- `path.relative(srcPath, fullPath)` as accumulated by the recursive
walk, in forward-slash form. -/
def relJoin (relPrefix n : String) : String :=
  if relPrefix = "" then n else relPrefix ++ "/" ++ n

/-- Accumulator of `collectFiles`: class files, assets, deduplicated
class names, and the running `codeTimestamp`. -/
structure CollectAcc where
  classFiles : List String
  assetFiles : List String
  classNames : List String
  codeTimestamp : Nat
deriving Repr, DecidableEq

mutual

/-- One `items.forEach` step of `collectFiles` in `scanDir`. -/
def collectFilesEntry (relPrefix : String) : FSEntry → CollectAcc → CollectAcc
  | .dir n cs, acc => collectFilesList (relJoin relPrefix n) cs acc
  | .file n mt ct, acc =>
    if isClassFileName n then
      { classFiles := acc.classFiles ++ [relJoin relPrefix n],
        assetFiles := acc.assetFiles,
        classNames :=
          if acc.classNames.contains (baseClassName n) then acc.classNames
          else acc.classNames ++ [baseClassName n],
        codeTimestamp := max acc.codeTimestamp (max mt ct) }
    else
      { acc with assetFiles := acc.assetFiles ++ [relJoin relPrefix n] }

/-- `collectFiles` over a directory listing, in order. -/
def collectFilesList (relPrefix : String) : List FSEntry → CollectAcc → CollectAcc
  | [], acc => acc
  | e :: rest, acc =>
    collectFilesList relPrefix rest (collectFilesEntry relPrefix e acc)

end

/-- `path.basename(entry.name, "-app.xml")`. -/
def stripAppXml (fileName : String) : String :=
  if strEndsWith fileName "-app.xml" then
    String.mk (fileName.data.take (fileName.data.length - "-app.xml".data.length))
  else fileName

/-- The descriptor mapping of `scanDir` for one `-app.xml` file.  When no
class file's relative path starts with the descriptor's name,
`relativeClassPath` is `undefined` and the source's
`path.join(entry.path, relativeClassPath)` throws a `TypeError`, modelled
as `Except.error`. -/
def mkDescriptor (srcPath : String) (classFiles : List String)
    (fileName : String) : Except String Descriptor :=
  let name := stripAppXml fileName
  match classFiles.find? (fun relFilePath => strStartsWith relFilePath name) with
  | some relativeClassPath =>
    Except.ok
      { name := name, fileName := fileName,
        filePath := pjoin srcPath fileName,
        relativeClassPath := relativeClassPath,
        related_class :=
          { file_path := pjoin srcPath relativeClassPath,
            package := relPathToPackageName relativeClassPath } }
  | none =>
    Except.error ("TypeError: path.join received undefined building related_class of "
      ++ fileName)

def mkDescriptors (srcPath : String) (classFiles : List String) :
    List String → Except String (List Descriptor)
  | [] => Except.ok []
  | f :: rest =>
    match mkDescriptor srcPath classFiles f with
    | Except.error e => Except.error e
    | Except.ok d =>
      match mkDescriptors srcPath classFiles rest with
      | Except.error e => Except.error e
      | Except.ok ds => Except.ok (d :: ds)

/-- Names of the `-app.xml` files directly under `src`. -/
def descriptorFileNames (srcChildren : List FSEntry) : List String :=
  (srcChildren.filter (fun e => e.isFile && strEndsWith e.entryName "-app.xml")).map
    (fun e => e.entryName)

/-- The non-recursive `bin` scan of `scanDir`:
(has_binaries, binary_timestamp, has_app_binary). -/
def binScan (binChildren : List FSEntry) : Bool × Nat × Bool :=
  binChildren.foldl (fun st e =>
    match e with
    | .file n mt ct =>
      if strEndsWith n ".swf" || strEndsWith n ".swc" then
        (true, max st.2.1 (max mt ct), st.2.2 || strEndsWith n ".swf")
      else st
    | .dir _ _ => st) (false, 0, false)

/-- `fs.readdirSync(lib).some((file) => file.endsWith(".swc"))`
(plain `readdirSync` yields names of files and directories alike). -/
def libHasSwc (libChildren : List FSEntry) : Bool :=
  libChildren.any (fun e => strEndsWith e.entryName ".swc")

instance {e a : Type} [DecidableEq e] [DecidableEq a] : DecidableEq (Except e a) :=
  fun x y =>
    match x, y with
    | Except.ok u, Except.ok v =>
      if h : u = v then Decidable.isTrue (by rw [h])
      else Decidable.isFalse (by intro hh; cases hh; exact h rfl)
    | Except.error u, Except.error v =>
      if h : u = v then Decidable.isTrue (by rw [h])
      else Decidable.isFalse (by intro hh; cases hh; exact h rfl)
    | Except.ok _, Except.error _ => Decidable.isFalse (by intro hh; cases hh)
    | Except.error _, Except.ok _ => Decidable.isFalse (by intro hh; cases hh)

/-- Result of one `scanDir` call. -/
inductive ScanOutcome where
  | notProject
  | nested (problem : String)
  | project (record : Project)
deriving Repr, DecidableEq

/-- `scanDir(dir)` from `scan_tools.js` on the directory at `dirPath`
whose base name is `dirName` and whose listing is `entries`.  The
descriptor mapping can throw (`Except.error`), which aborts the whole
scan. -/
def scanDir (dirPath dirName : String) (entries : List FSEntry) :
    Except String ScanOutcome :=
  match findDirChild entries "src" with
  | none => Except.ok ScanOutcome.notProject
  | some srcChildren =>
    let projectName := sanitizeProjectName dirName
    let srcPath := pjoin dirPath "src"
    if nestedSrcsExist srcChildren then
      Except.ok (ScanOutcome.nested ("Nested project detected in: " ++ srcPath))
    else
      let acc := collectFilesList "" srcChildren ⟨[], [], [], 0⟩
      match mkDescriptors srcPath acc.classFiles (descriptorFileNames srcChildren) with
      | Except.error e => Except.error e
      | Except.ok descs =>
        let knownDescriptors := descs.filter (fun d => acc.classNames.contains d.name)
        let hasDescriptor := !knownDescriptors.isEmpty
        let bin := match findDirChild entries "bin" with
          | some binChildren => binScan binChildren
          | none => (false, 0, false)
        let hasLibDir := match findDirChild entries "lib" with
          | some libChildren => libHasSwc libChildren
          | none => false
        Except.ok (ScanOutcome.project
          { project_name := projectName, project_home_dir := dirPath,
            has_descriptor := hasDescriptor,
            known_descriptors := knownDescriptors,
            has_lib_dir := hasLibDir,
            has_binaries := bin.1, has_app_binary := bin.2.2,
            classFiles := acc.classFiles, assetFiles := acc.assetFiles,
            code_timestamp := acc.codeTimestamp, binary_timestamp := bin.2.1,
            is_dirty := decide (bin.2.1 < acc.codeTimestamp),
            is_app_probability := if hasDescriptor || bin.2.2 then 1 else 0 })

mutual

/-- One `entries.forEach` step of `traverse` in `doShallowScan`: a
directory child is scanned for projecthood and then traversed further; a
file contributes nothing.  The log pairs each visited directory with its
`scanDir` outcome, in call order. -/
def traverseEntry (dirPath : String) :
    FSEntry → Except String (List (String × ScanOutcome))
  | .file _ _ _ => Except.ok []
  | .dir name children =>
    match scanDir (pjoin dirPath name) name children with
    | Except.error e => Except.error e
    | Except.ok outcome =>
      match traverseChildren (pjoin dirPath name) children with
      | Except.error e => Except.error e
      | Except.ok inner =>
        Except.ok ((pjoin dirPath name, outcome) :: inner)

/-- `traverse(dir)` over a directory listing, in order. -/
def traverseChildren (dirPath : String) :
    List FSEntry → Except String (List (String × ScanOutcome))
  | [] => Except.ok []
  | e :: rest =>
    match traverseEntry dirPath e with
    | Except.error er => Except.error er
    | Except.ok first =>
      match traverseChildren dirPath rest with
      | Except.error er => Except.error er
      | Except.ok outer => Except.ok (first ++ outer)

end

/-- `doShallowScan` after the traversal: the project catalog and the
problems log in push order (`Except.error` = the stage died on an uncaught
exception and wrote neither). -/
def doShallowScan (workspaceDir : String) (workspaceChildren : List FSEntry) :
    Except String (List Project × List String) :=
  match traverseChildren workspaceDir workspaceChildren with
  | Except.error e => Except.error e
  | Except.ok log =>
    Except.ok
      (log.filterMap (fun pc => match pc.2 with
        | ScanOutcome.project record => some record
        | _ => none),
       log.filterMap (fun pc => match pc.2 with
        | ScanOutcome.nested problem => some problem
        | _ => none))

example :
    doShallowScan "W"
      [.dir "libA" [.dir "src" [.dir "a" [.file "A.as" 7 6]]]] =
    Except.ok
      ([{ project_name := "libA", project_home_dir := "W/libA",
          has_descriptor := false, known_descriptors := [],
          has_lib_dir := false, has_binaries := false, has_app_binary := false,
          classFiles := ["a/A.as"], assetFiles := [], code_timestamp := 7,
          binary_timestamp := 0, is_dirty := true, is_app_probability := 0 }],
       []) := by decide

/-- C5 counterexample: on a workspace whose only top-level directory
`outer` is rejected as a nested project, the scan nevertheless descends
into `outer` — the inner project `W/outer/src/inner` is emitted into the
catalog (its home path lies strictly inside the rejected candidate),
contradicting the claim that the scan "does not descend further into that
candidate". -/
theorem c5_counterexample_descends_into_rejected :
    doShallowScan "W"
      [.dir "outer" [.dir "src" [.dir "inner" [.dir "src" []]]]] =
      Except.ok
        ([{ project_name := "inner", project_home_dir := "W/outer/src/inner",
            has_descriptor := false, known_descriptors := [],
            has_lib_dir := false, has_binaries := false, has_app_binary := false,
            classFiles := [], assetFiles := [], code_timestamp := 0,
            binary_timestamp := 0, is_dirty := false, is_app_probability := 0 }],
         ["Nested project detected in: W/outer/src"]) ∧
    strStartsWith "W/outer/src/inner" ("W/outer" ++ "/") = true := by
  decide

/-- C5 amended: a candidate whose `src` contains a directory that itself
contains a `src` is rejected (no catalog record; only the nested-project
problem is produced for it) and the traversal continues with the sibling
directories; every project record the scanner does emit belongs to a
directory with a `src` child whose listing passes the nested-`src` check
(so no emitted project has a `src/*/src`).  Contrary to the original
claim, the traversal still descends into the rejected candidate (see the
counterexample), so the "does not descend further" part is dropped. -/
theorem c5_scanner_nested_rejection :
    (∀ dirPath dirName entries record,
      scanDir dirPath dirName entries = Except.ok (ScanOutcome.project record) →
      ∃ srcChildren, findDirChild entries "src" = some srcChildren ∧
        nestedSrcsExist srcChildren = false ∧
        record.project_home_dir = dirPath) ∧
    (∀ dirPath dirName entries problem,
      scanDir dirPath dirName entries = Except.ok (ScanOutcome.nested problem) →
      ∃ srcChildren, findDirChild entries "src" = some srcChildren ∧
        nestedSrcsExist srcChildren = true ∧
        problem = "Nested project detected in: " ++ pjoin dirPath "src") ∧
    (∀ dirPath e rest log,
      traverseChildren dirPath (e :: rest) = Except.ok log →
      ∃ first outer, traverseEntry dirPath e = Except.ok first ∧
        traverseChildren dirPath rest = Except.ok outer ∧ log = first ++ outer) := by
  refine ⟨?_, ?_, ?_⟩
  · intro dirPath dirName entries record h
    simp only [scanDir] at h
    cases hfind : findDirChild entries "src" with
    | none =>
      rw [hfind] at h
      simp at h
    | some srcChildren =>
      simp only [hfind] at h
      by_cases hnest : nestedSrcsExist srcChildren
      · rw [if_pos hnest] at h
        simp at h
      · rw [if_neg hnest] at h
        cases hdesc : mkDescriptors (pjoin dirPath "src")
            (collectFilesList "" srcChildren ⟨[], [], [], 0⟩).classFiles
            (descriptorFileNames srcChildren) with
        | error e =>
          simp only [hdesc] at h
          simp at h
        | ok descs =>
          simp only [hdesc] at h
          simp only [Except.ok.injEq, ScanOutcome.project.injEq] at h
          refine ⟨srcChildren, rfl, by simpa using hnest, ?_⟩
          rw [← h]
  · intro dirPath dirName entries problem h
    simp only [scanDir] at h
    cases hfind : findDirChild entries "src" with
    | none =>
      rw [hfind] at h
      simp at h
    | some srcChildren =>
      simp only [hfind] at h
      by_cases hnest : nestedSrcsExist srcChildren
      · rw [if_pos hnest] at h
        simp only [Except.ok.injEq, ScanOutcome.nested.injEq] at h
        exact ⟨srcChildren, rfl, hnest, h.symm⟩
      · rw [if_neg hnest] at h
        cases hdesc : mkDescriptors (pjoin dirPath "src")
            (collectFilesList "" srcChildren ⟨[], [], [], 0⟩).classFiles
            (descriptorFileNames srcChildren) with
        | error e =>
          simp only [hdesc] at h
          simp at h
        | ok descs =>
          simp only [hdesc] at h
          simp at h
  · intro dirPath e rest log h
    simp only [traverseChildren] at h
    cases he : traverseEntry dirPath e with
    | error er =>
      rw [he] at h
      simp at h
    | ok first =>
      simp only [he] at h
      cases hr : traverseChildren dirPath rest with
      | error er =>
        rw [hr] at h
        simp at h
      | ok outer =>
        simp only [hr] at h
        simp only [Except.ok.injEq] at h
        exact ⟨first, outer, rfl, rfl, h.symm⟩

/-- Witness for C5's amended statement: the three parts applied to
concrete directories. -/
theorem c5_scanner_nested_rejection_witness :
    (∃ srcChildren, findDirChild [FSEntry.dir "src" []] "src" = some srcChildren ∧
      nestedSrcsExist srcChildren = false ∧
      ({ project_name := "l", project_home_dir := "W/l",
         has_descriptor := false, known_descriptors := [],
         has_lib_dir := false, has_binaries := false, has_app_binary := false,
         classFiles := [], assetFiles := [], code_timestamp := 0,
         binary_timestamp := 0, is_dirty := false,
         is_app_probability := 0 } : Project).project_home_dir = "W/l") ∧
    (∃ srcChildren,
      findDirChild [FSEntry.dir "src" [FSEntry.dir "inner" [FSEntry.dir "src" []]]]
        "src" = some srcChildren ∧
      nestedSrcsExist srcChildren = true ∧
      "Nested project detected in: W/outer/src" =
        "Nested project detected in: " ++ pjoin "W/outer" "src") ∧
    (∃ first outer,
      traverseEntry "W" (FSEntry.dir "l" [FSEntry.dir "src" []]) = Except.ok first ∧
      traverseChildren "W" [] = Except.ok outer ∧
      ([("W/l", ScanOutcome.project
          { project_name := "l", project_home_dir := "W/l",
            has_descriptor := false, known_descriptors := [],
            has_lib_dir := false, has_binaries := false, has_app_binary := false,
            classFiles := [], assetFiles := [], code_timestamp := 0,
            binary_timestamp := 0, is_dirty := false, is_app_probability := 0 }),
        ("W/l/src", ScanOutcome.notProject)]
        : List (String × ScanOutcome)) = first ++ outer) := by
  refine ⟨?_, ?_, ?_⟩
  · exact c5_scanner_nested_rejection.1 "W/l" "l" [FSEntry.dir "src" []] _ (by decide)
  · exact c5_scanner_nested_rejection.2.1 "W/outer" "outer"
      [FSEntry.dir "src" [FSEntry.dir "inner" [FSEntry.dir "src" []]]]
      "Nested project detected in: W/outer/src" (by decide)
  · exact c5_scanner_nested_rejection.2.2 "W" (FSEntry.dir "l" [FSEntry.dir "src" []])
      [] _ (by decide)

/-- C9: refuted on the code.  A descriptor `Foo-app.xml` whose name
matches a class basename (`Foo`, from `bar/Foo.as`) but prefixes no class
file's relative path makes the shallow scanner's descriptor mapping call
`path.join` with `undefined`; the resulting `TypeError` is uncaught in
`scanDir`/`traverse`/`doShallowScan`, so the whole stage aborts and the
catalog is never written — the sibling project `W/other` is lost too,
contradicting the claim that a single-project failure leaves the stage's
artifact covering all other projects. -/
theorem c9_shallowScan_aborts_on_descriptor :
    doShallowScan "W"
      [.dir "proj" [.dir "src" [.file "Foo-app.xml" 0 0,
                                .dir "bar" [.file "Foo.as" 5 5]]],
       .dir "other" [.dir "src" [.file "B.as" 1 1]]] =
      Except.error
        "TypeError: path.join received undefined building related_class of Foo-app.xml" := by
  decide

/-! ## Manual-dependency patcher (`patch_tools.js`) and dependency builder
(`dep_tools.js`, `buildDependencies`) -/

/-- The `analyzed_class` part of a `classes.json` entry.  (The deep
scanner leaves `name`/`package` null when extraction fails.) -/
structure AnalyzedClass where
  file_path : String
  name : Option String
  package : Option String
  expected_relative_path : String
  path_matches_package : Bool
  project_dir : String
deriving Repr, DecidableEq

/-- One entry of `classes.json`. -/
structure ClassEntry where
  analyzed_class : AnalyzedClass
  class_couplings : List Coupling
deriving Repr, DecidableEq

/-- One record of the `--g_manual_dependencies` argument. -/
structure Amendment where
  project : String
  dependencies : List String
deriving Repr, DecidableEq

/-- `classes.find((entry) => entry.analyzed_class.file_path.endsWith(projectClass))`
followed by `projectClassEntry.class_couplings.unshift(coupling)`: prepend
the coupling to the first matching entry (no entry matching — the
`hasValue` guard — leaves the catalog unchanged). -/
def unshiftAtFirst (projectClass : String) (coupling : Coupling) :
    List ClassEntry → List ClassEntry
  | [] => []
  | entry :: rest =>
    if strEndsWith entry.analyzed_class.file_path projectClass then
      { entry with class_couplings := coupling :: entry.class_couplings } :: rest
    else entry :: unshiftAtFirst projectClass coupling rest

/-- The body of the `dependencies.forEach` loop of
`manuallyAddDependencies` as a catalog transformation: when all checks
pass (`patchCouplingFor` gives the coupling; a class entry for the
project's first class file exists) the coupling is unshifted, otherwise
the catalog is unchanged. -/
def patchDep (disk : List String) (projects : List Project)
    (projectClass : String) (classes : List ClassEntry)
    (dependencyProject : String) : List ClassEntry :=
  if classes.any (fun entry =>
      strEndsWith entry.analyzed_class.file_path projectClass) then
    match patchCouplingFor disk projects dependencyProject with
    | some coupling => unshiftAtFirst projectClass coupling classes
    | none => classes
  else classes

/-- The body of the `amendments.forEach` loop of
`manuallyAddDependencies`: validate the amended project (on disk, has a
catalog entry with class files, non-empty dependency list), then patch
each dependency in order.  `path.normalize` is the identity in the
forward-slash path model. -/
def patchAmendment (disk : List String) (projects : List Project)
    (classes : List ClassEntry) (am : Amendment) : List ClassEntry :=
  if disk.contains am.project && !am.dependencies.isEmpty then
    match projects.find? (fun entry => entry.project_home_dir == am.project) with
    | none => classes
    | some projectEntry =>
      match projectEntry.classFiles with
      | [] => classes
      | projectClass :: _ =>
        am.dependencies.foldl (patchDep disk projects projectClass) classes
  else classes

/-- `manuallyAddDependencies` from `patch_tools.js` as the transformation
it applies to the loaded `classes.json` (the rewritten catalog is what
`buildDependencies` later reads). -/
def manuallyAddDependencies (disk : List String) (projects : List Project)
    (classes : List ClassEntry) (amendments : List Amendment) :
    List ClassEntry :=
  amendments.foldl (patchAmendment disk projects) classes

/-- Node initialisation in `buildDependencies`: `root_classes` is seeded
from the project's retained descriptors when `has_descriptor` holds. -/
def initNode (projects : List Project) (projectPath : String) : DepNode :=
  { project_path := projectPath, project_dependencies := [],
    num_dependencies := 0,
    root_classes :=
      match projects.find? (fun proj => proj.project_home_dir == projectPath) with
      | some project =>
        if project.has_descriptor then
          project.known_descriptors.map (fun descObj => descObj.related_class)
        else []
      | none => [] }

/-- One coupling step of the `class_couplings.filter(...).forEach(...)`
in `buildDependencies`: a coupling with `class_exists`, a truthy
`matching_project` different from the owning project adds that project to
the dependency list if absent (`num_dependencies` tracks the pushes). -/
def depFoldStep (projectPath : String) (nd : DepNode) (coupling : Coupling) :
    DepNode :=
  match coupling.matching_project with
  | none => nd
  | some mp =>
    if coupling.class_exists && mp != "" && mp != projectPath then
      if nd.project_dependencies.contains mp then nd
      else { nd with project_dependencies := nd.project_dependencies ++ [mp],
                     num_dependencies := nd.num_dependencies + 1 }
    else nd

/-- Update the node keyed `projectPath` in the insertion-ordered map. -/
def updateNode (m : List DepNode) (projectPath : String) (f : DepNode → DepNode) :
    List DepNode :=
  m.map (fun nd => if nd.project_path == projectPath then f nd else nd)

/-- The `classes.forEach` body of `buildDependencies`: initialise the
owning project's node if absent, then fold its couplings into it. -/
def buildDepsStep (projects : List Project) (m : List DepNode)
    (entry : ClassEntry) : List DepNode :=
  let projectPath := entry.analyzed_class.project_dir
  let m1 := if (findNode m projectPath).isSome then m
            else m ++ [initNode projects projectPath]
  updateNode m1 projectPath
    (fun nd => entry.class_couplings.foldl (depFoldStep projectPath) nd)

/-- The dependency map of `buildDependencies` before the final sort. -/
def buildDependenciesPre (projects : List Project) (classes : List ClassEntry) :
    List DepNode :=
  classes.foldl (buildDepsStep projects) []

/-- `buildDependencies` from `dep_tools.js`: fold `classes.json` into the
project dependency map and sort by `num_dependencies` ascending (stable
sort, as in the JavaScript engines the tool runs on). -/
def buildDependencies (projects : List Project) (classes : List ClassEntry) :
    List DepNode :=
  (buildDependenciesPre projects classes).mergeSort
    (fun a b => a.num_dependencies ≤ b.num_dependencies)

example :
    buildDependenciesPre []
      [⟨⟨"W/app/src/m/M.as", some "M", some "m", "m/M.as", true, "W/app"⟩,
        [⟨"A", some "a", "a/A.as", "import", some "W/libA", some "W/libA/src/a/A.as", true⟩]⟩,
       ⟨⟨"W/libA/src/a/A.as", some "A", some "a", "a/A.as", true, "W/libA"⟩, []⟩] =
    [⟨"W/app", ["W/libA"], 1, []⟩, ⟨"W/libA", [], 0, []⟩] := by decide

example :
    manuallyAddDependencies ["W/libB", "W/libA", "W/libA/src/a/A.as"]
      [⟨"libA", "W/libA", false, [], false, false, false, ["a/A.as"], [], 2, 9, false, 0⟩,
       ⟨"libB", "W/libB", false, [], false, false, false, ["b/B.as"], [], 2, 9, false, 0⟩]
      [⟨⟨"W/libB/src/b/B.as", some "B", some "b", "b/B.as", true, "W/libB"⟩, []⟩]
      [⟨"W/libB", ["W/libA"]⟩] =
    [⟨⟨"W/libB/src/b/B.as", some "B", some "b", "b/B.as", true, "W/libB"⟩,
      [⟨"a", some "a", "a/A.as", "patch", some "W/libA", some "W/libA/src/a/A.as", true⟩]⟩] := by
  decide

/-! ### C8: re-application of the patcher is idempotent w.r.t. `deps.json` -/

/-- The class-file paths of the catalog entries — the only part of
`classes.json` the patcher's own checks read, and which the patcher never
modifies. -/
def pathsOf (classes : List ClassEntry) : List String :=
  classes.map (fun entry => entry.analyzed_class.file_path)

/-- Replay a list of recorded unshift operations
(target suffix, coupling). -/
def applyOps (ops : List (String × Coupling)) (classes : List ClassEntry) :
    List ClassEntry :=
  ops.foldl (fun cs op => unshiftAtFirst op.1 op.2 cs) classes

/-- The operations `patchDep` performs, as a function of the invariant
inputs only. -/
def opsForDep (disk : List String) (projects : List Project)
    (projectClass : String) (paths : List String)
    (dependencyProject : String) : List (String × Coupling) :=
  if paths.any (fun fp => strEndsWith fp projectClass) then
    match patchCouplingFor disk projects dependencyProject with
    | some coupling => [(projectClass, coupling)]
    | none => []
  else []

/-- The operations `patchAmendment` performs. -/
def opsForAmendment (disk : List String) (projects : List Project)
    (paths : List String) (am : Amendment) : List (String × Coupling) :=
  if disk.contains am.project && !am.dependencies.isEmpty then
    match projects.find? (fun entry => entry.project_home_dir == am.project) with
    | none => []
    | some projectEntry =>
      match projectEntry.classFiles with
      | [] => []
      | projectClass :: _ =>
        am.dependencies.foldl
          (fun acc d => acc ++ opsForDep disk projects projectClass paths d) []
  else []

/-- The operations a whole `manuallyAddDependencies` run performs. -/
def opsOf (disk : List String) (projects : List Project)
    (paths : List String) (amendments : List Amendment) :
    List (String × Coupling) :=
  amendments.foldl
    (fun acc am => acc ++ opsForAmendment disk projects paths am) []

lemma unshiftAtFirst_analyzed (pc : String) (c : Coupling) :
    ∀ cs : List ClassEntry,
      (unshiftAtFirst pc c cs).map (fun e => e.analyzed_class) =
      cs.map (fun e => e.analyzed_class) := by
  intro cs
  induction cs with
  | nil => rfl
  | cons entry rest ih =>
    by_cases h : strEndsWith entry.analyzed_class.file_path pc
    · simp [unshiftAtFirst, h]
    · simp [unshiftAtFirst, h, ih]

lemma pathsOf_unshiftAtFirst (pc : String) (c : Coupling) (cs : List ClassEntry) :
    pathsOf (unshiftAtFirst pc c cs) = pathsOf cs := by
  induction cs with
  | nil => rfl
  | cons entry rest ih =>
    by_cases h : strEndsWith entry.analyzed_class.file_path pc
    · simp [unshiftAtFirst, pathsOf, h]
    · simp only [unshiftAtFirst, h, Bool.false_eq_true, if_false, pathsOf, List.map_cons]
      simpa [pathsOf] using ih

lemma anyEnds_pathsOf (pc : String) (cs : List ClassEntry) :
    (cs.any (fun entry => strEndsWith entry.analyzed_class.file_path pc)) =
    ((pathsOf cs).any (fun fp => strEndsWith fp pc)) := by
  induction cs with
  | nil => rfl
  | cons entry rest ih => simp [pathsOf, List.any_cons, ih]

lemma applyOps_append (o1 o2 : List (String × Coupling)) (cs : List ClassEntry) :
    applyOps (o1 ++ o2) cs = applyOps o2 (applyOps o1 cs) := by
  simp [applyOps, List.foldl_append]

lemma pathsOf_applyOps (ops : List (String × Coupling)) :
    ∀ cs, pathsOf (applyOps ops cs) = pathsOf cs := by
  induction ops with
  | nil => intro cs; rfl
  | cons op rest ih =>
    intro cs
    show pathsOf (applyOps rest (unshiftAtFirst op.1 op.2 cs)) = pathsOf cs
    rw [ih, pathsOf_unshiftAtFirst]

lemma analyzed_applyOps (ops : List (String × Coupling)) :
    ∀ cs, (applyOps ops cs).map (fun e => e.analyzed_class) =
      cs.map (fun e => e.analyzed_class) := by
  induction ops with
  | nil => intro cs; rfl
  | cons op rest ih =>
    intro cs
    show (applyOps rest (unshiftAtFirst op.1 op.2 cs)).map _ = _
    rw [ih, unshiftAtFirst_analyzed]

lemma patchDep_eq_applyOps (disk : List String) (projects : List Project)
    (pc : String) (cs : List ClassEntry) (d : String) :
    patchDep disk projects pc cs d =
      applyOps (opsForDep disk projects pc (pathsOf cs) d) cs := by
  unfold patchDep opsForDep
  rw [← anyEnds_pathsOf]
  by_cases hany : cs.any (fun entry => strEndsWith entry.analyzed_class.file_path pc)
  · rw [if_pos hany, if_pos hany]
    cases patchCouplingFor disk projects d with
    | none => rfl
    | some coupling => rfl
  · rw [if_neg hany, if_neg hany]
    rfl

lemma foldl_ops_acc {A B : Type} {g : A → List B} :
    ∀ (l : List A) (acc : List B),
      l.foldl (fun a d => a ++ g d) acc =
      acc ++ l.foldl (fun a d => a ++ g d) [] := by
  intro l
  induction l with
  | nil => intro acc; simp
  | cons d rest ih =>
    intro acc
    show List.foldl _ (acc ++ g d) rest = acc ++ List.foldl _ ([] ++ g d) rest
    rw [ih (acc ++ g d), ih ([] ++ g d)]
    simp

lemma patchDeps_fold_eq (disk : List String) (projects : List Project)
    (pc : String) :
    ∀ (deps : List String) (cs : List ClassEntry),
      deps.foldl (patchDep disk projects pc) cs =
      applyOps (deps.foldl
        (fun acc d => acc ++ opsForDep disk projects pc (pathsOf cs) d) []) cs := by
  intro deps
  induction deps with
  | nil => intro cs; rfl
  | cons d rest ih =>
    intro cs
    show rest.foldl (patchDep disk projects pc) (patchDep disk projects pc cs d) =
      applyOps (rest.foldl
        (fun acc d' => acc ++ opsForDep disk projects pc (pathsOf cs) d')
        ([] ++ opsForDep disk projects pc (pathsOf cs) d)) cs
    rw [List.nil_append, foldl_ops_acc, applyOps_append, ← patchDep_eq_applyOps]
    have hih := ih (patchDep disk projects pc cs d)
    have hpaths : pathsOf (patchDep disk projects pc cs d) = pathsOf cs := by
      rw [patchDep_eq_applyOps, pathsOf_applyOps]
    rw [hpaths] at hih
    exact hih

lemma patchAmendment_eq_applyOps (disk : List String) (projects : List Project)
    (cs : List ClassEntry) (am : Amendment) :
    patchAmendment disk projects cs am =
      applyOps (opsForAmendment disk projects (pathsOf cs) am) cs := by
  unfold patchAmendment opsForAmendment
  by_cases hgate : disk.contains am.project && !am.dependencies.isEmpty
  · rw [if_pos hgate, if_pos hgate]
    cases hf : projects.find? (fun entry => entry.project_home_dir == am.project) with
    | none =>
      simp only [hf]
      rfl
    | some projectEntry =>
      simp only [hf]
      cases hcf : projectEntry.classFiles with
      | nil =>
        simp only [hcf]
        rfl
      | cons projectClass restCf =>
        simp only [hcf]
        exact patchDeps_fold_eq disk projects projectClass am.dependencies cs
  · rw [if_neg hgate, if_neg hgate]
    rfl

lemma pathsOf_patchAmendment (disk : List String) (projects : List Project)
    (cs : List ClassEntry) (am : Amendment) :
    pathsOf (patchAmendment disk projects cs am) = pathsOf cs := by
  rw [patchAmendment_eq_applyOps, pathsOf_applyOps]

lemma manuallyAddDependencies_eq_applyOps (disk : List String)
    (projects : List Project) :
    ∀ (amendments : List Amendment) (cs : List ClassEntry),
      manuallyAddDependencies disk projects cs amendments =
      applyOps (opsOf disk projects (pathsOf cs) amendments) cs := by
  intro amendments
  induction amendments with
  | nil => intro cs; rfl
  | cons am rest ih =>
    intro cs
    unfold manuallyAddDependencies opsOf
    show rest.foldl (patchAmendment disk projects) (patchAmendment disk projects cs am) =
      applyOps (rest.foldl
        (fun acc a => acc ++ opsForAmendment disk projects (pathsOf cs) a)
        ([] ++ opsForAmendment disk projects (pathsOf cs) am)) cs
    rw [List.nil_append, foldl_ops_acc, applyOps_append, ← patchAmendment_eq_applyOps]
    have hih := ih (patchAmendment disk projects cs am)
    unfold manuallyAddDependencies opsOf at hih
    rw [pathsOf_patchAmendment] at hih
    exact hih

lemma pathsOf_manuallyAddDependencies (disk : List String)
    (projects : List Project) (cs : List ClassEntry)
    (amendments : List Amendment) :
    pathsOf (manuallyAddDependencies disk projects cs amendments) = pathsOf cs := by
  rw [manuallyAddDependencies_eq_applyOps, pathsOf_applyOps]

/-- Alignment of two patched catalogs over two base catalogs: position by
position, the two bases have equal `analyzed_class` parts and the two
patched entries prepend the SAME block of couplings to their respective
base entries. -/
inductive AddAligned :
    List ClassEntry → List ClassEntry → List ClassEntry → List ClassEntry → Prop
  | nil : AddAligned [] [] [] []
  | cons {a a' d d' : ClassEntry} {cs cs' ds ds' : List ClassEntry}
      (blk : List Coupling)
      (haa : a.analyzed_class = a'.analyzed_class)
      (ha : d.analyzed_class = a.analyzed_class)
      (ha' : d'.analyzed_class = a'.analyzed_class)
      (hc : d.class_couplings = blk ++ a.class_couplings)
      (hc' : d'.class_couplings = blk ++ a'.class_couplings)
      (tail : AddAligned cs cs' ds ds') :
      AddAligned (a :: cs) (a' :: cs') (d :: ds) (d' :: ds')

lemma addAligned_refl :
    ∀ {cs cs' : List ClassEntry},
      cs.map (fun e => e.analyzed_class) = cs'.map (fun e => e.analyzed_class) →
      AddAligned cs cs' cs cs' := by
  intro cs
  induction cs with
  | nil =>
    intro cs' h
    cases cs' with
    | nil => exact AddAligned.nil
    | cons _ _ => simp at h
  | cons a rest ih =>
    intro cs' h
    cases cs' with
    | nil => simp at h
    | cons a' rest' =>
      simp only [List.map_cons, List.cons.injEq] at h
      exact AddAligned.cons [] h.1 rfl rfl (by simp) (by simp) (ih h.2)

lemma addAligned_unshift (pc : String) (c : Coupling) :
    ∀ {cs cs' ds ds' : List ClassEntry}, AddAligned cs cs' ds ds' →
      AddAligned cs cs' (unshiftAtFirst pc c ds) (unshiftAtFirst pc c ds') := by
  intro cs cs' ds ds' h
  induction h with
  | nil => exact AddAligned.nil
  | cons blk haa ha ha' hc hc' tail ih =>
    rename_i a a' d d' csr csr' dsr dsr'
    by_cases hcond : strEndsWith d.analyzed_class.file_path pc
    · have hcond' : strEndsWith d'.analyzed_class.file_path pc := by
        rw [ha', ← haa, ← ha]; exact hcond
      have e1 : unshiftAtFirst pc c (d :: dsr) =
          { d with class_couplings := c :: d.class_couplings } :: dsr := by
        simp [unshiftAtFirst, hcond]
      have e2 : unshiftAtFirst pc c (d' :: dsr') =
          { d' with class_couplings := c :: d'.class_couplings } :: dsr' := by
        simp [unshiftAtFirst, hcond']
      rw [e1, e2]
      refine AddAligned.cons (c :: blk) haa ha ha' ?_ ?_ tail
      · show c :: d.class_couplings = (c :: blk) ++ a.class_couplings
        rw [hc]
        rfl
      · show c :: d'.class_couplings = (c :: blk) ++ a'.class_couplings
        rw [hc']
        rfl
    · have hcond' : ¬ strEndsWith d'.analyzed_class.file_path pc := by
        rw [ha', ← haa, ← ha]; exact hcond
      have e1 : unshiftAtFirst pc c (d :: dsr) = d :: unshiftAtFirst pc c dsr := by
        simp [unshiftAtFirst, hcond]
      have e2 : unshiftAtFirst pc c (d' :: dsr') = d' :: unshiftAtFirst pc c dsr' := by
        simp [unshiftAtFirst, hcond']
      rw [e1, e2]
      exact AddAligned.cons blk haa ha ha' hc hc' ih

lemma addAligned_applyOps (ops : List (String × Coupling)) :
    ∀ {cs cs' ds ds' : List ClassEntry}, AddAligned cs cs' ds ds' →
      AddAligned cs cs' (applyOps ops ds) (applyOps ops ds') := by
  induction ops with
  | nil => intro cs cs' ds ds' h; exact h
  | cons op rest ih =>
    intro cs cs' ds ds' h
    show AddAligned cs cs' (applyOps rest (unshiftAtFirst op.1 op.2 ds))
      (applyOps rest (unshiftAtFirst op.1 op.2 ds'))
    exact ih (addAligned_unshift op.1 op.2 h)

lemma depFoldStep_mem (p : String) (nd : DepNode) (c : Coupling) (x : String)
    (hx : x ∈ nd.project_dependencies) :
    x ∈ (depFoldStep p nd c).project_dependencies := by
  cases hm : c.matching_project with
  | none => simp only [depFoldStep, hm]; exact hx
  | some mp =>
    simp only [depFoldStep, hm]
    by_cases hg : c.class_exists && mp != "" && mp != p
    · rw [if_pos hg]
      by_cases hin : nd.project_dependencies.contains mp
      · rw [if_pos hin]; exact hx
      · rw [if_neg hin]
        simp only [List.mem_append]
        exact Or.inl hx
    · rw [if_neg hg]; exact hx

lemma depFold_list_mem (p : String) :
    ∀ (l : List Coupling) (nd : DepNode) (x : String),
      x ∈ nd.project_dependencies →
      x ∈ (l.foldl (depFoldStep p) nd).project_dependencies := by
  intro l
  induction l with
  | nil => intro nd x hx; exact hx
  | cons c rest ih =>
    intro nd x hx
    exact ih (depFoldStep p nd c) x (depFoldStep_mem p nd c x hx)

lemma depFoldStep_adds (p : String) (nd : DepNode) (c : Coupling) (mp : String)
    (hm : c.matching_project = some mp)
    (hg : (c.class_exists && mp != "" && mp != p) = true) :
    mp ∈ (depFoldStep p nd c).project_dependencies := by
  simp only [depFoldStep, hm]
  rw [if_pos hg]
  by_cases hin : nd.project_dependencies.contains mp
  · rw [if_pos hin]
    exact List.mem_of_elem_eq_true hin
  · rw [if_neg hin]
    simp

lemma depFold_list_adds (p : String) :
    ∀ (l : List Coupling) (nd : DepNode), ∀ c ∈ l, ∀ mp : String,
      c.matching_project = some mp →
      (c.class_exists && mp != "" && mp != p) = true →
      mp ∈ (l.foldl (depFoldStep p) nd).project_dependencies := by
  intro l
  induction l with
  | nil => intro nd c hc; simp at hc
  | cons c0 rest ih =>
    intro nd c hc mp hm hg
    rcases List.mem_cons.mp hc with rfl | hrest
    · exact depFold_list_mem p rest (depFoldStep p nd c) mp
        (depFoldStep_adds p nd c mp hm hg)
    · exact ih (depFoldStep p nd c0) c hrest mp hm hg

lemma depFoldStep_noop (p : String) (nd : DepNode) (c : Coupling)
    (h : ∀ mp : String, c.matching_project = some mp →
      (c.class_exists && mp != "" && mp != p) = true →
      mp ∈ nd.project_dependencies) :
    depFoldStep p nd c = nd := by
  cases hm : c.matching_project with
  | none => simp only [depFoldStep, hm]
  | some mp =>
    simp only [depFoldStep, hm]
    by_cases hg : c.class_exists && mp != "" && mp != p
    · rw [if_pos hg]
      have hmem := h mp hm hg
      rw [if_pos (by simpa using hmem)]
    · rw [if_neg hg]

lemma depFold_list_noop (p : String) :
    ∀ (l : List Coupling) (nd : DepNode),
      (∀ c ∈ l, ∀ mp : String, c.matching_project = some mp →
        (c.class_exists && mp != "" && mp != p) = true →
        mp ∈ nd.project_dependencies) →
      l.foldl (depFoldStep p) nd = nd := by
  intro l
  induction l with
  | nil => intro nd _; rfl
  | cons c0 rest ih =>
    intro nd h
    have hstep : depFoldStep p nd c0 = nd :=
      depFoldStep_noop p nd c0 (h c0 (by simp))
    show rest.foldl (depFoldStep p) (depFoldStep p nd c0) = nd
    rw [hstep]
    exact ih nd (fun c hc => h c (by simp [hc]))

lemma depFold_absorb (p : String) (blk : List Coupling) (nd : DepNode) :
    blk.foldl (depFoldStep p) (blk.foldl (depFoldStep p) nd) =
    blk.foldl (depFoldStep p) nd := by
  apply depFold_list_noop
  intro c hc mp hm hg
  exact depFold_list_adds p blk nd c hc mp hm hg

lemma depFold_double (p : String) (blk rest : List Coupling) (nd : DepNode) :
    (blk ++ (blk ++ rest)).foldl (depFoldStep p) nd =
    (blk ++ rest).foldl (depFoldStep p) nd := by
  rw [List.foldl_append, List.foldl_append, List.foldl_append, depFold_absorb]

lemma buildDepsStep_congr (projects : List Project) (m : List DepNode)
    (d d' : ClassEntry)
    (ha : d'.analyzed_class = d.analyzed_class)
    (hfold : ∀ nd : DepNode,
      d'.class_couplings.foldl (depFoldStep d.analyzed_class.project_dir) nd =
      d.class_couplings.foldl (depFoldStep d.analyzed_class.project_dir) nd) :
    buildDepsStep projects m d' = buildDepsStep projects m d := by
  unfold buildDepsStep
  dsimp only
  rw [ha]
  have hfun : (fun nd : DepNode =>
      d'.class_couplings.foldl (depFoldStep d.analyzed_class.project_dir) nd) =
      (fun nd : DepNode =>
      d.class_couplings.foldl (depFoldStep d.analyzed_class.project_dir) nd) :=
    funext hfold
  rw [hfun]

lemma buildPre_congr (projects : List Project) :
    ∀ {cs cs1 ds ds' : List ClassEntry}, AddAligned cs cs1 ds ds' → cs1 = ds →
      ∀ m, ds'.foldl (buildDepsStep projects) m = ds.foldl (buildDepsStep projects) m := by
  intro cs cs1 ds ds' h
  induction h with
  | nil => intro _ m; rfl
  | cons blk haa ha ha' hc hc' tail ih =>
    rename_i a a' d d' csr csr' dsr dsr'
    intro heq m
    injection heq with h1 h2
    have had : d'.analyzed_class = d.analyzed_class := by rw [ha', h1]
    have hcd : d'.class_couplings = blk ++ d.class_couplings := by rw [hc', h1]
    have hstep : buildDepsStep projects m d' = buildDepsStep projects m d := by
      apply buildDepsStep_congr projects m d d' had
      intro nd
      rw [hcd, hc]
      exact depFold_double _ blk a.class_couplings nd
    show List.foldl _ (buildDepsStep projects m d') dsr' =
      List.foldl _ (buildDepsStep projects m d) dsr
    rw [hstep]
    exact ih h2 (buildDepsStep projects m d)

/-- C8: confirmed.  Running `manuallyAddDependencies` twice with the same
amendments and then `buildDependencies` yields the same `deps.json` as
running it once: the second application prepends the same blocks of
`patch` couplings again (its checks read only the catalog's invariant
`file_path` data), and the Dependency Builder's uniqueness check on
`matching_project` collapses the duplicates. -/
theorem c8_patcher_idempotent_for_deps (disk : List String)
    (projects : List Project) (classes : List ClassEntry)
    (amendments : List Amendment) :
    buildDependencies projects
      (manuallyAddDependencies disk projects
        (manuallyAddDependencies disk projects classes amendments) amendments) =
    buildDependencies projects
      (manuallyAddDependencies disk projects classes amendments) := by
  have h1 := manuallyAddDependencies_eq_applyOps disk projects amendments classes
  have h2 := manuallyAddDependencies_eq_applyOps disk projects amendments
    (manuallyAddDependencies disk projects classes amendments)
  rw [pathsOf_manuallyAddDependencies] at h2
  have hbase : AddAligned classes
      (manuallyAddDependencies disk projects classes amendments) classes
      (manuallyAddDependencies disk projects classes amendments) := by
    apply addAligned_refl
    rw [h1, analyzed_applyOps]
  have hal := addAligned_applyOps
    (opsOf disk projects (pathsOf classes) amendments) hbase
  rw [← h1, ← h2] at hal
  unfold buildDependencies buildDependenciesPre
  rw [buildPre_congr projects hal rfl []]
